import Mathlib

/-!
# Verification of the tree-tab core of `zotero-tree-style-tabs`

Shallow embedding of `src/modules/treeTabManager.ts`.  The mutable
`Map<string, TabNode>` of the source is modelled as an insertion-ordered
association list with unique keys (JavaScript `Map` semantics:
`set` on an existing key updates the entry in place, otherwise appends;
`delete` removes the entry), and the `Set<string>` of collapsed ids as an
insertion-ordered duplicate-free list (`add` appends when absent).
JavaScript string truthiness (`""` is falsy) is modelled by `optTruthy`.
Unbounded recursion of the source (`updateChildLevels`, `getDescendants`,
the render traversal, the visibility walk) is modelled with an explicit
fuel parameter; on the states over which the theorems quantify the fuel
is sufficient, so the functions agree with the source wherever the
source terminates.
-/

/-- The `TabNode` record of `src/addon.ts` / `treeTabManager.ts`.
`ty` embeds the source field `type` (a Lean keyword). -/
structure TabNode where
  id : String
  parentId : Option String
  childIds : List String
  level : Nat
  collapsed : Bool
  title : String
  ty : String
  nodeType : String
  selected : Bool
deriving Repr, DecidableEq

/-- The whole mutable state: the tabs map plus the `TreeStructure`
(`roots` list and `collapsed` set). -/
structure TreeState where
  tabs : List (String × TabNode)
  roots : List String
  collapsed : List String
deriving Repr, DecidableEq

/-- `Map.get`: first entry with the given key. -/
def mapGet : List (String × TabNode) → String → Option TabNode
  | [], _ => none
  | (k', v) :: rest, k => if k' = k then some v else mapGet rest k

/-- `Map.set`: update in place if the key is present, else append. -/
def mapSet : List (String × TabNode) → String → TabNode → List (String × TabNode)
  | [], k, v => [(k, v)]
  | (k', v') :: rest, k, v =>
      if k' = k then (k', v) :: rest else (k', v') :: mapSet rest k v

/-- `Map.delete`. -/
def mapDelete (m : List (String × TabNode)) (k : String) : List (String × TabNode) :=
  m.filter (fun e => e.1 ≠ k)

/-- Mutating the node object aliased into the map at key `k`
(`const n = this.tabs.get(k); n.field = ...`): a no-op when absent. -/
def updateNode (S : TreeState) (k : String) (f : TabNode → TabNode) : TreeState :=
  match mapGet S.tabs k with
  | none => S
  | some n => { S with tabs := mapSet S.tabs k (f n) }

/-- `Set.add`: append when absent. -/
def setAdd (s : List String) (x : String) : List String :=
  if x ∈ s then s else s ++ [x]

/-- `Set.delete`. -/
def setDelete (s : List String) (x : String) : List String :=
  s.filter (fun y => y ≠ x)

/-- `new Set(list)`: deduplicate keeping first occurrences. -/
def setFromList (l : List String) : List String :=
  l.foldl setAdd []

/-- JavaScript truthiness of a `string | null | undefined` value:
`null`, `undefined` and `""` are falsy.  Normalises a falsy value
to `none` so that `match` mirrors `if (x) { ... } else { ... }`. -/
def optTruthy : Option String → Option String
  | none => none
  | some s => if s = "" then none else some s

def emptyState : TreeState := { tabs := [], roots := [], collapsed := [] }

/-- `addTab(id, title, type, parentId = null)` (lines 187-220), minus the
fire-and-forget persistence write. -/
def addTab (S : TreeState) (id title ty : String) (parentId : Option String) :
    TreeState :=
  let node : TabNode :=
    { id := id, parentId := parentId, childIds := [], level := 0,
      collapsed := false, title := title, ty := ty, nodeType := "tab",
      selected := false }
  match optTruthy parentId with
  | some pid =>
    match mapGet S.tabs pid with
    | some parent =>
      let S' := updateNode S pid (fun p => { p with childIds := p.childIds ++ [id] })
      { S' with tabs := mapSet S'.tabs id { node with level := parent.level + 1 } }
    | none =>
      { S with tabs := mapSet S.tabs id { node with parentId := none },
               roots := S.roots ++ [id] }
  | none =>
      { S with tabs := mapSet S.tabs id { node with parentId := none },
               roots := S.roots ++ [id] }

/-- `createGroup(title, parentId)` (lines 225-253).  The generated id
(`group-${Date.now()}-${random}`) is environment supplied, so the
embedding takes it as the argument `genId`. -/
def createGroup (S : TreeState) (genId : String) (title : String)
    (parentId : Option String) : TreeState :=
  let node : TabNode :=
    { id := genId, parentId := parentId, childIds := [], level := 0,
      collapsed := false, title := title, ty := "group", nodeType := "group",
      selected := false }
  match optTruthy parentId with
  | some pid =>
    match mapGet S.tabs pid with
    | some parent =>
      let S' := updateNode S pid (fun p => { p with childIds := p.childIds ++ [genId] })
      { S' with tabs := mapSet S'.tabs genId { node with level := parent.level + 1 } }
    | none =>
      { S with tabs := mapSet S.tabs genId { node with parentId := none },
               roots := S.roots ++ [genId] }
  | none =>
      { S with tabs := mapSet S.tabs genId { node with parentId := none },
               roots := S.roots ++ [genId] }

/-- `updateChildLevels(parentId)` (lines 328-339): sets each child's
`level` to the parent's current `level + 1` and recurses.  The source
recursion is unbounded (and diverges on a cyclic structure); `fuel`
bounds the depth. -/
def updateChildLevels : Nat → TreeState → String → TreeState
  | 0, S, _ => S
  | fuel + 1, S, parentId =>
    match mapGet S.tabs parentId with
    | none => S
    | some parent =>
      parent.childIds.foldl
        (fun s childId =>
          match mapGet s.tabs childId with
          | none => s
          | some _ =>
            let s' :=
              match mapGet s.tabs parentId with
              | some p => updateNode s childId (fun c => { c with level := p.level + 1 })
              | none => s
            updateChildLevels fuel s' childId)
        S

/-- `recalculateLevels()` (lines 344-352). -/
def recalculateLevels (fuel : Nat) (S : TreeState) : TreeState :=
  S.roots.foldl
    (fun s rootId =>
      match mapGet s.tabs rootId with
      | none => s
      | some _ =>
        updateChildLevels fuel (updateNode s rootId (fun r => { r with level := 0 })) rootId)
    S

/-- `getDescendants(id)` (lines 438-449): depth-first list of descendant
ids, the node itself excluded. -/
def getDescendants : Nat → TreeState → String → List String
  | 0, _, _ => []
  | fuel + 1, S, id =>
    match mapGet S.tabs id with
    | none => []
    | some node =>
      node.childIds.foldl (fun acc c => acc ++ c :: getDescendants fuel S c) []

/-- `removeNodeFromTree(id, promoteChildren)` (lines 284-323). -/
def removeNodeFromTree (fuel : Nat) (S : TreeState) (id : String)
    (promoteChildren : Bool) : TreeState :=
  match mapGet S.tabs id with
  | none => S
  | some node =>
    let S1 :=
      if promoteChildren then
        node.childIds.foldl
          (fun s childId =>
            match mapGet s.tabs childId with
            | none => s
            | some _ =>
              let s := updateNode s childId
                (fun c => { c with parentId := node.parentId, level := node.level })
              let s := updateChildLevels fuel s childId
              match optTruthy node.parentId with
              | some gp =>
                updateNode s gp (fun g => { g with childIds := g.childIds ++ [childId] })
              | none =>
                if childId ∈ s.roots then s else { s with roots := s.roots ++ [childId] })
          S
      else S
    let S2 :=
      match optTruthy node.parentId with
      | some pid => updateNode S1 pid (fun p => { p with childIds := p.childIds.erase id })
      | none => { S1 with roots := S1.roots.erase id }
    { S2 with collapsed := setDelete S2.collapsed id, tabs := mapDelete S2.tabs id }

/-- `autoCollapseSiblings(expandedId)` (lines 478-495). -/
def autoCollapseSiblings (S : TreeState) (expandedId : String) : TreeState :=
  match mapGet S.tabs expandedId with
  | none => S
  | some node =>
    let siblingIds :=
      match optTruthy node.parentId with
      | some pid =>
        match mapGet S.tabs pid with
        | some p => p.childIds
        | none => []
      | none => S.roots
    siblingIds.foldl
      (fun s sid =>
        if sid = expandedId then s
        else
          match mapGet s.tabs sid with
          | none => s
          | some sib =>
            if sib.childIds.length > 0 then
              let s' := updateNode s sid (fun n => { n with collapsed := true })
              { s' with collapsed := setAdd s'.collapsed sid }
            else s)
      S

/-- `toggleCollapsed(id)` (lines 454-473); `autoCollapse` is the
`autoCollapse` preference. -/
def toggleCollapsed (autoCollapse : Bool) (S : TreeState) (id : String) : TreeState :=
  match mapGet S.tabs id with
  | none => S
  | some node =>
    if node.childIds.length = 0 then S
    else
      let nc := !node.collapsed
      let S1 := updateNode S id (fun n => { n with collapsed := nc })
      if nc then { S1 with collapsed := setAdd S1.collapsed id }
      else
        let S2 := { S1 with collapsed := setDelete S1.collapsed id }
        if autoCollapse then autoCollapseSiblings S2 id else S2

/-- `collapseAll()` (lines 500-508).  The `forEach` is modelled as a fold
over the keys present at entry (no entries are added or removed). -/
def collapseAll (S : TreeState) : TreeState :=
  (S.tabs.map Prod.fst).foldl
    (fun s k =>
      match mapGet s.tabs k with
      | none => s
      | some node =>
        if node.childIds.length > 0 then
          let s' := updateNode s k (fun n => { n with collapsed := true })
          { s' with collapsed := setAdd s'.collapsed node.id }
        else s)
    S

/-- `expandAll()` (lines 513-519). -/
def expandAll (S : TreeState) : TreeState :=
  { S with tabs := S.tabs.map (fun e => (e.1, { e.2 with collapsed := false })),
           collapsed := [] }

/-- `attachTabTo(tabId, newParentId)` (lines 524-562). -/
def attachTabTo (fuel : Nat) (S : TreeState) (tabId : String)
    (newParentId : Option String) : TreeState :=
  match mapGet S.tabs tabId with
  | none => S
  | some tab =>
    let blocked :=
      match optTruthy newParentId with
      | some np => (getDescendants fuel S tabId).contains np
      | none => false
    if blocked then S
    else
      let S1 :=
        match optTruthy tab.parentId with
        | some pid =>
          updateNode S pid (fun p => { p with childIds := p.childIds.erase tabId })
        | none => { S with roots := S.roots.erase tabId }
      let S2 := updateNode S1 tabId (fun t => { t with parentId := newParentId })
      let S3 :=
        match optTruthy newParentId with
        | some np =>
          match mapGet S2.tabs np with
          | some newParent =>
            let s := updateNode S2 np (fun p => { p with childIds := p.childIds ++ [tabId] })
            updateNode s tabId (fun t => { t with level := newParent.level + 1 })
          | none => S2
        | none =>
          updateNode { S2 with roots := S2.roots ++ [tabId] } tabId
            (fun t => { t with level := 0 })
      updateChildLevels fuel S3 tabId

/-- A host-reported tab as consumed by `syncWithZoteroTabs`: its id, its
resolved display title (the result of `getTabTitle`, whose fallbacks go
through the external Zotero API), and its `type`. -/
structure ZTab where
  id : String
  title : String
  ty : String
deriving Repr, DecidableEq

/-- Accumulator of the first `forEach` pass of `syncWithZoteroTabs`:
the growing `currentTabIds` set, the `idMigrationMap`, and the store. -/
structure SyncAcc where
  currentTabIds : List String
  idMigrationMap : List (String × String)
  state : TreeState
deriving Repr, DecidableEq

/-- `idMigrationMap.get` (keys are unique: each source node is migrated
at most once). -/
def migGet : List (String × String) → String → Option String
  | [], _ => none
  | (a, b) :: rest, k => if a = k then some b else migGet rest k

/-- The inner `for (const [tabId, node] of this.tabs.entries())` search of
lines 106-112: first stored entry that is a tab-kind node with exactly
the reported title and whose key is not in the `currentTabIds`
accumulated so far. -/
def findMigrationSource (tabs : List (String × TabNode)) (currentIds : List String)
    (ztTitle : String) : Option (String × TabNode) :=
  tabs.find? (fun e =>
    e.2.nodeType == "tab" && e.2.title == ztTitle && !(currentIds.contains e.1))

/-- One iteration of the first pass of `syncWithZoteroTabs`
(lines 100-132): migrate by title match, else add a genuinely new tab as
a root, else refresh the existing node. -/
def syncTabStep (selectedID : Option String) (acc : SyncAcc) (zt : ZTab) : SyncAcc :=
  let currentIds := setAdd acc.currentTabIds zt.id
  let S := acc.state
  match findMigrationSource S.tabs currentIds zt.title with
  | some (tabId, existingNode) =>
    let migrated : TabNode :=
      { existingNode with
          id := zt.id, title := zt.title, ty := zt.ty,
          selected := some zt.id == selectedID }
    let S' := { S with tabs := mapSet (mapDelete S.tabs existingNode.id) zt.id migrated }
    { currentTabIds := currentIds,
      idMigrationMap := acc.idMigrationMap ++ [(tabId, zt.id)],
      state := S' }
  | none =>
    if (mapGet S.tabs zt.id).isNone then
      { acc with currentTabIds := currentIds,
                 state := addTab S zt.id zt.title zt.ty none }
    else
      { acc with currentTabIds := currentIds,
                 state := updateNode S zt.id (fun n =>
                   { n with title := zt.title, ty := zt.ty,
                            selected := some zt.id == selectedID }) }

/-- `idMigrationMap.get(x) || x` (lines 145, 152, 158): the mapped id,
except that a falsy lookup result — `undefined`, or the empty string —
falls back to `x` itself. -/
def migSubst (migMap : List (String × String)) (x : String) : String :=
  match migGet migMap x with
  | some y => if y = "" then x else y
  | none => x

/-- The second pass of `syncWithZoteroTabs` (lines 134-161): substitute
migrated ids in every `parentId`, every `childIds` entry, the `roots`
list, and the `collapsed` set.  The `parentId` pass (lines 138-140)
guards with `has` and assigns `get` directly; the other three passes use
the `get(x) || x` fallback (`migSubst`). -/
def applyMigration (migMap : List (String × String)) (S : TreeState) : TreeState :=
  if migMap.length = 0 then S
  else
    let migParent : TabNode → TabNode := fun n =>
      match optTruthy n.parentId with
      | some pid =>
        (match migGet migMap pid with
         | some newId => { n with parentId := some newId }
         | none => n)
      | none => n
    let migChildren : TabNode → TabNode := fun n =>
      { n with childIds := n.childIds.map (fun c => migSubst migMap c) }
    let tabs1 := S.tabs.map (fun (e : String × TabNode) => (e.1, migParent e.2))
    let S1 := { S with tabs := tabs1 }
    let tabs2 := S1.tabs.map (fun (e : String × TabNode) => (e.1, migChildren e.2))
    let S2 := { S1 with tabs := tabs2 }
    let S3 := { S2 with roots := S2.roots.map (fun r => migSubst migMap r) }
    let newCollapsed :=
      S3.collapsed.foldl (fun acc c => setAdd acc (migSubst migMap c)) []
    { S3 with collapsed := newCollapsed }

/-- The removal pass of `syncWithZoteroTabs` (lines 163-168): every
tab-kind node whose id is not in the reported set is removed via
`removeTabFromTree` (`promote` is the `collapseOnClose` preference,
default `true`). -/
def syncRemovePass (fuel : Nat) (promote : Bool) (currentIds : List String)
    (S : TreeState) : TreeState :=
  S.tabs.foldl
    (fun s e =>
      if e.2.nodeType == "tab" && !(currentIds.contains e.1) then
        removeNodeFromTree fuel s e.1 promote
      else s)
    S

/-- The selection pass of `syncWithZoteroTabs` (lines 170-173). -/
def syncSelectionPass (selectedID : Option String) (S : TreeState) : TreeState :=
  { S with tabs := S.tabs.map (fun e => (e.1,
      { e.2 with selected := e.2.nodeType == "tab" && some e.2.id == selectedID })) }

/-- `syncWithZoteroTabs(win)` (lines 85-182), minus the persistence
write; the host snapshot is the `_tabs` array plus `selectedID`. -/
def syncWithZoteroTabs (fuel : Nat) (promote : Bool) (ztabs : List ZTab)
    (selectedID : Option String) (S : TreeState) : TreeState :=
  let acc := ztabs.foldl (syncTabStep selectedID) ⟨[], [], S⟩
  let S2 := applyMigration acc.idMigrationMap acc.state
  let S3 := syncRemovePass fuel promote acc.currentTabIds S2
  let S4 := syncSelectionPass selectedID S3
  recalculateLevels fuel S4

/-- `onTabAdded(win, ids, extraData)` (lines 357-372): each id found in
the host's tab list and not yet in the store is added as a root
(`parentId = null`). -/
def onTabAdded (ztabs : List ZTab) (ids : List String) (S : TreeState) : TreeState :=
  ids.foldl
    (fun s id =>
      match ztabs.find? (fun t => t.id == id) with
      | none => s
      | some zt =>
        if (mapGet s.tabs id).isNone then
          addTab s id (if zt.title = "" then zt.ty else zt.title) zt.ty none
        else s)
    S

/-- `addWithChildren(id, isHidden)` of `getTabsInTreeOrder`
(lines 619-635).  The `isHidden` flag is computed and threaded exactly as
in the source, where it is never used to filter the output. -/
def addWithChildren : Nat → TreeState → String → Bool → List TabNode
  | 0, _, _, _ => []
  | fuel + 1, S, id, isHidden =>
    match mapGet S.tabs id with
    | none => []
    | some node =>
      node :: node.childIds.foldl
        (fun acc c => acc ++ addWithChildren fuel S c (isHidden || node.collapsed)) []

/-- `getTabsInTreeOrder()` (lines 616-643). -/
def getTabsInTreeOrder (fuel : Nat) (S : TreeState) : List TabNode :=
  S.roots.foldl (fun acc r => acc ++ addWithChildren fuel S r false) []

/-- The ancestor walk of `isTabVisible` (the `while (current)` loop of
lines 652-658); on fuel exhaustion it returns `true`, matching the
loop's fall-through result. -/
def isTabVisibleWalk : Nat → TreeState → Option String → Bool
  | 0, _, _ => true
  | fuel + 1, S, current =>
    match optTruthy current with
    | none => true
    | some cid =>
      match mapGet S.tabs cid with
      | none => true
      | some parent =>
        if parent.collapsed then false else isTabVisibleWalk fuel S parent.parentId

/-- `isTabVisible(tabId)` (lines 648-661). -/
def isTabVisible (fuel : Nat) (S : TreeState) (tabId : String) : Bool :=
  match mapGet S.tabs tabId with
  | none => false
  | some tab => isTabVisibleWalk fuel S tab.parentId

/-- One record of the persisted `tabs` array (lines 718-726). -/
structure PersistedTab where
  id : String
  parentId : Option String
  childIds : List String
  collapsed : Bool
  nodeType : String
  title : String
  ty : String
deriving Repr, DecidableEq

/-- The persisted document (lines 716-729).  `version` is `Option` so
that a document with the field missing is representable. -/
structure PersistedDoc where
  version : Option Nat
  tabs : List PersistedTab
  roots : List String
  collapsed : List String
deriving Repr, DecidableEq

/-- `saveTreeStructure()` (lines 714-736): the document it serialises. -/
def saveTreeStructure (S : TreeState) : PersistedDoc :=
  { version := some 1,
    tabs := S.tabs.map (fun e =>
      { id := e.1, parentId := e.2.parentId, childIds := e.2.childIds,
        collapsed := e.2.collapsed, nodeType := e.2.nodeType,
        title := e.2.title, ty := e.2.ty }),
    roots := S.roots,
    collapsed := S.collapsed }

/-- `loadTreeStructure()` (lines 741-779) applied to a parsed document:
restores `roots` and `collapsed`, then inserts each stored tab not
already present with `level := 0`, `selected := false`, and the source's
fallback defaults (`nodeType || "tab"`; the `|| []` / `|| false` /
`|| ""` fallbacks are identities on the typed fields). The document's
`version` field is never examined by the source. -/
def loadTabStep (s : TreeState) (td : PersistedTab) : TreeState :=
  if (mapGet s.tabs td.id).isSome then s
  else
    let node : TabNode :=
      { id := td.id, parentId := td.parentId, childIds := td.childIds,
        level := 0, collapsed := td.collapsed, title := td.title, ty := td.ty,
        nodeType := if td.nodeType = "" then "tab" else td.nodeType,
        selected := false }
    { s with tabs := mapSet s.tabs td.id node }

def loadTreeStructure (doc : PersistedDoc) (S : TreeState) : TreeState :=
  let S1 := { S with roots := doc.roots, collapsed := setFromList doc.collapsed }
  doc.tabs.foldl loadTabStep S1

/-! ## Validity predicates and projections used by the theorems -/

/-- A JavaScript `Map` cannot hold two entries with the same key. -/
def MapKeysNodup (S : TreeState) : Prop := (S.tabs.map Prod.fst).Nodup

/-- Every stored node's `id` field equals its map key (true of every
state the manager builds: nodes are always stored under their id). -/
def WellKeyed (S : TreeState) : Prop := ∀ e ∈ S.tabs, (Prod.snd e).id = Prod.fst e

/-- The lockstep invariant of spec section 3: a node's `collapsed` flag
agrees with membership of its key in the `TreeStructure.collapsed` set,
and the set holds only ids of live nodes. -/
def CollapsedLockstep (S : TreeState) : Prop :=
  (∀ e ∈ S.tabs, ((Prod.snd e).collapsed = true ↔ Prod.fst e ∈ S.collapsed)) ∧
  (∀ c ∈ S.collapsed, c ∈ S.tabs.map Prod.fst)

/-- The store-health bundle every reachable state enjoys: the lockstep
invariant, plus nodes stored under their own id, plus unique map keys. -/
def TreeOk (S : TreeState) : Prop :=
  CollapsedLockstep S ∧ WellKeyed S ∧ MapKeysNodup S

/-- Forget the cached `level` of one map entry. -/
def stripE (e : String × TabNode) : String × TabNode :=
  (e.1, { e.2 with level := 0 })

/-- Forget every node's cached `level` (derived data). -/
def stripLevels (S : TreeState) : TreeState :=
  { S with tabs := S.tabs.map stripE }

/-- Forget the transient fields `level` and `selected`. -/
def stripTransient (S : TreeState) : TreeState :=
  { S with tabs := S.tabs.map (fun e => (e.1, { e.2 with level := 0, selected := false })) }

/-- Clear every node's transient `selected` flag. -/
def unselect (S : TreeState) : TreeState :=
  { S with tabs := S.tabs.map (fun e => (e.1, { e.2 with selected := false })) }

/-- The structural skeleton a traversal depends on: per key the stored
node's `id` and ordered `childIds`, plus the `roots` list. -/
def shape (S : TreeState) : List (String × String × List String) × List String :=
  (S.tabs.map (fun e => (e.1, (e.2.id, e.2.childIds))), S.roots)

/-- The structural projection of a node a traversal depends on. -/
def projShape (n : TabNode) : String × Option String × List String :=
  (n.id, n.parentId, n.childIds)

/-- Two states with the same roots and the same structural projection at
every key (they may differ in collapse flags, levels, titles, ...). -/
def SameShape (A B : TreeState) : Prop :=
  A.roots = B.roots ∧
  ∀ k, (mapGet A.tabs k).map projShape = (mapGet B.tabs k).map projShape

/-- Abstract rose tree witnessing an acyclic tab hierarchy. -/
inductive FTree where
  | node : String → List FTree → FTree
deriving Repr

def FTree.rootId : FTree → String
  | .node i _ => i

mutual

/-- Depth-first id listing of a tree (the node, then its subtrees). -/
def FTree.flatIds : FTree → List String
  | .node i cs => i :: flatIdsList cs

/-- Depth-first id listing of a forest. -/
def flatIdsList : List FTree → List String
  | [] => []
  | t :: ts => t.flatIds ++ flatIdsList ts

end

mutual

/-- Height of a tree (a leaf has height 1). -/
def FTree.height : FTree → Nat
  | .node _ cs => heightList cs + 1

/-- Maximum height over a forest. -/
def heightList : List FTree → Nat
  | [] => 0
  | t :: ts => max t.height (heightList ts)

end

/-- `RepTree S p t`: the store `S` realises the abstract tree `t` under
parent `p` — the root of `t` is stored under its own (nonempty) id, its
`parentId` is `p`, its `childIds` are exactly the ids of `t`'s subtrees
in order, and the subtrees are realised recursively. -/
inductive RepTree (S : TreeState) : Option String → FTree → Prop
  | node (p : Option String) (i : String) (cs : List FTree) (n : TabNode)
      (hne : i ≠ "")
      (hget : mapGet S.tabs i = some n)
      (hid : n.id = i)
      (hpar : n.parentId = p)
      (hch : n.childIds = cs.map FTree.rootId)
      (hcs : ∀ c ∈ cs, RepTree S (some i) c) :
      RepTree S p (.node i cs)

/-- The store realises the abstract forest `F`: `roots` lists exactly the
roots of `F` in order and each tree of `F` is realised with no parent. -/
def RepForest (S : TreeState) (F : List FTree) : Prop :=
  S.roots = F.map FTree.rootId ∧ ∀ t ∈ F, RepTree S none t

/-! ## Helper lemmas -/

theorem foldl_loadTabStep_roots (tds : List PersistedTab) (S1 : TreeState) :
    (tds.foldl loadTabStep S1).roots = S1.roots := by
  induction tds generalizing S1 with
  | nil => rfl
  | cons td rest ih =>
    simp only [List.foldl]
    rw [ih]
    unfold loadTabStep
    split <;> rfl

theorem loadTreeStructure_roots (doc : PersistedDoc) (S : TreeState) :
    (loadTreeStructure doc S).roots = doc.roots := by
  unfold loadTreeStructure
  rw [foldl_loadTabStep_roots]

/-! ## The claims -/

/-- Claim C1.  The spec requires `attachTabTo` to reject every reparent
that would create a cycle, including the degenerate `newParentId = id`,
as a complete no-op.  The code's guard walks `getDescendants(id)`, which
never contains `id` itself, so `attachTabTo("a", "a")` slips through:
node `"a"` becomes its own child and its own parent (after which the
source's `updateChildLevels` recurses forever on the cycle).  This
contradicts the code's own `// Prevent circular reference` comment and
the spec's no-cycle invariant: a code bug, demonstrated here on a
one-node tree. -/
theorem attachTabTo_self_creates_cycle :
    (mapGet (attachTabTo 5 ⟨[("a", ⟨"a", none, [], 0, false, "A", "reader", "tab", false⟩)],
        ["a"], []⟩ "a" (some "a")).tabs "a").map TabNode.childIds = some ["a"] ∧
    (mapGet (attachTabTo 5 ⟨[("a", ⟨"a", none, [], 0, false, "A", "reader", "tab", false⟩)],
        ["a"], []⟩ "a" (some "a")).tabs "a").map TabNode.parentId = some (some "a") ∧
    attachTabTo 5 ⟨[("a", ⟨"a", none, [], 0, false, "A", "reader", "tab", false⟩)], ["a"], []⟩
        "a" (some "a")
      ≠ ⟨[("a", ⟨"a", none, [], 0, false, "A", "reader", "tab", false⟩)], ["a"], []⟩ := by
  refine ⟨rfl, rfl, ?_⟩
  decide

/-- Claim C2.  The spec's root/child exclusivity invariant is claimed to
survive `attachTabTo(id, p)` with `p` absent from the store.  It does
not: the code first detaches `id` from its old location (here the roots
list), sets `parentId := p`, and then finds no node `p` to append the
child to, leaving `id` in neither `roots` nor any `childIds` — a live
node referenced by nothing.  A code bug, demonstrated on a one-node
tree. -/
theorem attachTabTo_missing_parent_breaks_exclusivity :
    (mapGet (attachTabTo 5 ⟨[("a", ⟨"a", none, [], 0, false, "A", "reader", "tab", false⟩)],
        ["a"], []⟩ "a" (some "ghost")).tabs "a").map TabNode.parentId
      = some (some "ghost") ∧
    (attachTabTo 5 ⟨[("a", ⟨"a", none, [], 0, false, "A", "reader", "tab", false⟩)],
        ["a"], []⟩ "a" (some "ghost")).roots = [] ∧
    (∀ e ∈ (attachTabTo 5 ⟨[("a", ⟨"a", none, [], 0, false, "A", "reader", "tab", false⟩)],
        ["a"], []⟩ "a" (some "ghost")).tabs, "a" ∉ (Prod.snd e).childIds) := by
  refine ⟨rfl, rfl, ?_⟩
  decide

/-- Claim C4.  Reconciliation is claimed idempotent even when two
reported tabs share a title.  It is not: on the second run with snapshot
`[{id:"a",title:"T"}, {id:"b",title:"T"}]`, while processing `"a"` the
migration search consults the partially built `currentTabIds` set (which
does not yet contain `"b"`), so the stored node `"b"` — alive under its
own reported id — is wrongly treated as a migration source and relabeled
onto `"a"`, overwriting node `"a"`; `"b"` is then re-added as new and the
root substitution turns `roots` into `["a","a","a"]`.  A code bug (the
search is documented as matching tabs that exist *under a different id*). -/
theorem sync_not_idempotent_with_duplicate_titles :
    (syncWithZoteroTabs 10 true [⟨"a", "T", "reader"⟩, ⟨"b", "T", "reader"⟩] none
        emptyState).roots = ["a", "b"] ∧
    (syncWithZoteroTabs 10 true [⟨"a", "T", "reader"⟩, ⟨"b", "T", "reader"⟩] none
        (syncWithZoteroTabs 10 true [⟨"a", "T", "reader"⟩, ⟨"b", "T", "reader"⟩] none
          emptyState)).roots = ["a", "a", "a"] ∧
    syncWithZoteroTabs 10 true [⟨"a", "T", "reader"⟩, ⟨"b", "T", "reader"⟩] none
        (syncWithZoteroTabs 10 true [⟨"a", "T", "reader"⟩, ⟨"b", "T", "reader"⟩] none
          emptyState)
      ≠ syncWithZoteroTabs 10 true [⟨"a", "T", "reader"⟩, ⟨"b", "T", "reader"⟩] none
          emptyState := by
  refine ⟨rfl, rfl, ?_⟩
  decide

/-- Claim C5, counterexample.  The claim puts the promoted children at
P's former position in the former parent's `childIds`; the code pushes
them at the end instead.  Tree: root `g` with children `[p, q]`, `p` with
child `a`.  Removing `p` with promotion yields `g.childIds = [q, a]`,
not `[a, q]` as the claim requires. -/
theorem removeNode_promote_appends_at_end_not_position :
    (mapGet (removeNodeFromTree 5
        ⟨[("g", ⟨"g", none, ["p", "q"], 0, false, "G", "reader", "tab", false⟩),
          ("p", ⟨"p", some "g", ["a"], 1, false, "P", "reader", "tab", false⟩),
          ("q", ⟨"q", some "g", [], 1, false, "Q", "reader", "tab", false⟩),
          ("a", ⟨"a", some "p", [], 2, false, "A", "reader", "tab", false⟩)],
         ["g"], []⟩ "p" true).tabs "g").map TabNode.childIds = some ["q", "a"] ∧
    (mapGet (removeNodeFromTree 5
        ⟨[("g", ⟨"g", none, ["p", "q"], 0, false, "G", "reader", "tab", false⟩),
          ("p", ⟨"p", some "g", ["a"], 1, false, "P", "reader", "tab", false⟩),
          ("q", ⟨"q", some "g", [], 1, false, "Q", "reader", "tab", false⟩),
          ("a", ⟨"a", some "p", [], 2, false, "A", "reader", "tab", false⟩)],
         ["g"], []⟩ "p" true).tabs "g").map TabNode.childIds ≠ some ["a", "q"] := by
  refine ⟨rfl, ?_⟩
  decide

/-- Claim C9, counterexample.  The claim says a persisted document whose
`version` is missing or unknown is discarded and the tree starts empty.
The loader never reads `version`: loading a version-less document whose
`roots` is `["a"]` into an empty store restores `roots = ["a"]`. -/
theorem load_missing_version_is_not_discarded :
    loadTreeStructure ⟨none, [], ["a"], []⟩ emptyState ≠ emptyState ∧
    (loadTreeStructure ⟨none, [], ["a"], []⟩ emptyState).roots = ["a"] := by
  refine ⟨?_, rfl⟩
  decide

/-- Claim C9, amended.  `loadTreeStructure` never examines the
document's `version` field: a document with a missing or unknown version
is loaded exactly as a version-1 document, its `roots`, `collapsed` set
and tabs restored rather than discarded. -/
theorem load_ignores_version (v : Option Nat) (tabs : List PersistedTab)
    (roots collapsed : List String) (S : TreeState) :
    loadTreeStructure ⟨v, tabs, roots, collapsed⟩ S
      = loadTreeStructure ⟨some 1, tabs, roots, collapsed⟩ S ∧
    (loadTreeStructure ⟨v, tabs, roots, collapsed⟩ S).roots = roots := by
  exact ⟨rfl, loadTreeStructure_roots ⟨v, tabs, roots, collapsed⟩ S⟩

/-- Claim C5, amended.  For a parent P with children `[A,B,C]` in that
order, `removeNode(P, promoteChildren = true)` makes A, B, C — in that
order — either new roots appended at the *end* of the roots list (if P
was a root) or children of P's former parent appended at the *end* of
that parent's `childIds` (not at P's former position), with the promoted
children taking P's former level and deeper levels recomputed; and P no
longer exists anywhere: not in the store, not in `roots`, not in the
`collapsed` set and not in any node's `childIds`.  First conjunct: P has
a parent `g` and a following sibling `q`; second conjunct: P is a root
with a following root `r`. -/
theorem removeNode_promotes_children_at_end
    (g p q r a b c : String)
    (hg : g ≠ "")
    (hgp : g ≠ p) (hgq : g ≠ q) (hga : g ≠ a) (hgb : g ≠ b) (hgc : g ≠ c)
    (hpq : p ≠ q) (hpa : p ≠ a) (hpb : p ≠ b) (hpc : p ≠ c)
    (hqa : q ≠ a) (hqb : q ≠ b) (hqc : q ≠ c)
    (hab : a ≠ b) (hac : a ≠ c) (hbc : b ≠ c)
    (hpr : p ≠ r) (hra : r ≠ a) (hrb : r ≠ b) (hrc : r ≠ c) :
    (removeNodeFromTree 5
        ⟨[(g, ⟨g, none, [p, q], 0, false, "G", "t", "tab", false⟩),
          (p, ⟨p, some g, [a, b, c], 1, true, "P", "t", "tab", false⟩),
          (q, ⟨q, some g, [], 1, false, "Q", "t", "tab", false⟩),
          (a, ⟨a, some p, [], 2, false, "A", "t", "tab", false⟩),
          (b, ⟨b, some p, [], 2, false, "B", "t", "tab", false⟩),
          (c, ⟨c, some p, [], 2, false, "C", "t", "tab", false⟩)],
         [g], [p]⟩ p true
      = ⟨[(g, ⟨g, none, [q, a, b, c], 0, false, "G", "t", "tab", false⟩),
          (q, ⟨q, some g, [], 1, false, "Q", "t", "tab", false⟩),
          (a, ⟨a, some g, [], 1, false, "A", "t", "tab", false⟩),
          (b, ⟨b, some g, [], 1, false, "B", "t", "tab", false⟩),
          (c, ⟨c, some g, [], 1, false, "C", "t", "tab", false⟩)],
         [g], []⟩) ∧
    (removeNodeFromTree 5
        ⟨[(p, ⟨p, none, [a, b, c], 0, true, "P", "t", "tab", false⟩),
          (r, ⟨r, none, [], 0, false, "R", "t", "tab", false⟩),
          (a, ⟨a, some p, [], 1, false, "A", "t", "tab", false⟩),
          (b, ⟨b, some p, [], 1, false, "B", "t", "tab", false⟩),
          (c, ⟨c, some p, [], 1, false, "C", "t", "tab", false⟩)],
         [p, r], [p]⟩ p true
      = ⟨[(r, ⟨r, none, [], 0, false, "R", "t", "tab", false⟩),
          (a, ⟨a, none, [], 0, false, "A", "t", "tab", false⟩),
          (b, ⟨b, none, [], 0, false, "B", "t", "tab", false⟩),
          (c, ⟨c, none, [], 0, false, "C", "t", "tab", false⟩)],
         [r, a, b, c], []⟩) := by
  have hpg := hgp.symm
  have hqg := hgq.symm; have hag := hga.symm; have hbg := hgb.symm; have hcg := hgc.symm
  have hqp := hpq.symm; have hap := hpa.symm; have hbp := hpb.symm; have hcp := hpc.symm
  have haq := hqa.symm; have hbq := hqb.symm; have hcq := hqc.symm
  have hba := hab.symm; have hca := hac.symm; have hcb := hbc.symm
  have hrp := hpr.symm; have har := hra.symm; have hbr := hrb.symm; have hcr := hrc.symm
  constructor
  · simp [removeNodeFromTree, updateChildLevels, updateNode, mapGet, mapSet, mapDelete,
      setDelete, optTruthy, List.erase, setAdd,
      hg, hgp, hgq, hga, hgb, hgc, hpq, hpa, hpb, hpc, hqa, hqb, hqc, hab, hac, hbc,
      hpg, hqg, hag, hbg, hcg, hqp, hap, hbp, hcp, haq, hbq, hcq, hba, hca, hcb]
  · simp [removeNodeFromTree, updateChildLevels, updateNode, mapGet, mapSet, mapDelete,
      setDelete, optTruthy, List.erase, setAdd,
      hpr, hpa, hpb, hpc, hra, hrb, hrc, hab, hac, hbc,
      hrp, hap, hbp, hcp, har, hbr, hcr, hba, hca, hcb]

/-- Witness for claim C5's amended theorem at concrete ids: removing the
root `"p"` promotes `"a","b","c"` to the end of the roots list, after
the surviving root `"r"`. -/
theorem removeNode_promotes_children_at_end_witness :
    (removeNodeFromTree 5
        ⟨[("p", ⟨"p", none, ["a", "b", "c"], 0, true, "P", "t", "tab", false⟩),
          ("r", ⟨"r", none, [], 0, false, "R", "t", "tab", false⟩),
          ("a", ⟨"a", some "p", [], 1, false, "A", "t", "tab", false⟩),
          ("b", ⟨"b", some "p", [], 1, false, "B", "t", "tab", false⟩),
          ("c", ⟨"c", some "p", [], 1, false, "C", "t", "tab", false⟩)],
         ["p", "r"], ["p"]⟩ "p" true).roots = ["r", "a", "b", "c"] := by
  rw [(removeNode_promotes_children_at_end "g" "p" "q" "r" "a" "b" "c"
    (by decide) (by decide) (by decide) (by decide) (by decide) (by decide)
    (by decide) (by decide) (by decide) (by decide) (by decide) (by decide)
    (by decide) (by decide) (by decide) (by decide) (by decide) (by decide)
    (by decide) (by decide)).2]

theorem mapGet_mapSet_self (m : List (String × TabNode)) (k : String) (v : TabNode) :
    mapGet (mapSet m k v) k = some v := by
  induction m with
  | nil => simp [mapSet, mapGet]
  | cons e rest ih =>
    obtain ⟨k', v'⟩ := e
    by_cases h : k' = k
    · simp [mapSet, mapGet, h]
    · simp [mapSet, mapGet, h, ih]

/-- Claim C6.  A reported host tab whose id is not in the store and for
which the migration search finds no source becomes a root-level node —
`parentId = null`, `level = 0`, appended to the roots list — both on the
Reconciler path (the first-pass step of `syncWithZoteroTabs` calls
`addTab` with `parentId = null`) and on the `onTabAdded` path; it is
never parented to the most recently selected tab. -/
theorem new_tabs_default_to_root :
    (∀ (S : TreeState) (cur : List String) (mig : List (String × String))
       (zt : ZTab) (sel : Option String),
       findMigrationSource S.tabs (setAdd cur zt.id) zt.title = none →
       mapGet S.tabs zt.id = none →
       (syncTabStep sel ⟨cur, mig, S⟩ zt).state = addTab S zt.id zt.title zt.ty none ∧
       mapGet ((syncTabStep sel ⟨cur, mig, S⟩ zt).state).tabs zt.id
         = some ⟨zt.id, none, [], 0, false, zt.title, zt.ty, "tab", false⟩ ∧
       ((syncTabStep sel ⟨cur, mig, S⟩ zt).state).roots = S.roots ++ [zt.id]) ∧
    (∀ (S : TreeState) (ztabs : List ZTab) (i : String) (zt : ZTab),
       ztabs.find? (fun t => t.id == i) = some zt →
       mapGet S.tabs i = none →
       onTabAdded ztabs [i] S
         = addTab S i (if zt.title = "" then zt.ty else zt.title) zt.ty none ∧
       mapGet (onTabAdded ztabs [i] S).tabs i
         = some ⟨i, none, [], 0, false,
             (if zt.title = "" then zt.ty else zt.title), zt.ty, "tab", false⟩ ∧
       (onTabAdded ztabs [i] S).roots = S.roots ++ [i]) := by
  constructor
  · intro S cur mig zt sel h1 h2
    have hstep : (syncTabStep sel ⟨cur, mig, S⟩ zt).state
        = addTab S zt.id zt.title zt.ty none := by
      simp only [syncTabStep, h1, h2, Option.isNone_none, if_true]
    refine ⟨hstep, ?_, ?_⟩
    · rw [hstep]
      show mapGet (mapSet S.tabs zt.id _) zt.id = _
      exact mapGet_mapSet_self _ _ _
    · rw [hstep]; rfl
  · intro S ztabs i zt h1 h2
    have hstep : onTabAdded ztabs [i] S
        = addTab S i (if zt.title = "" then zt.ty else zt.title) zt.ty none := by
      simp only [onTabAdded, List.foldl, h1, h2, Option.isNone_none, if_true]
    refine ⟨hstep, ?_, ?_⟩
    · rw [hstep]
      show mapGet (mapSet S.tabs i _) i = _
      exact mapGet_mapSet_self _ _ _
    · rw [hstep]; rfl

/-- Witness for claim C6: a brand-new reported tab `"n"` (selected tab
`"s"`) lands as the sole root on the sync path, and a brand-new tab
`"m"` lands as a root on the `onTabAdded` path, in both cases with
`parentId = none`. -/
theorem new_tabs_default_to_root_witness :
    ((syncTabStep (some "s") ⟨[], [], emptyState⟩ ⟨"n", "T", "reader"⟩).state).roots
      = ["n"] ∧
    (onTabAdded [⟨"m", "U", "reader"⟩] ["m"] emptyState).roots = ["m"] :=
  ⟨(new_tabs_default_to_root.1 emptyState [] [] ⟨"n", "T", "reader"⟩ (some "s")
      (by decide) (by decide)).2.2,
   (new_tabs_default_to_root.2 emptyState [⟨"m", "U", "reader"⟩] "m" ⟨"m", "U", "reader"⟩
      (by decide) (by decide)).2.2⟩

/-- Claim C3.  Identifier migration preserves the hierarchy up to the id
substitution.  A stored tab-kind node `X` (id `old1`, title `t`,
collapsed, a root) has child `Y` (id `y1`, title `u`); the host reports
`{id := new1, title := t}` (and `Y` under its own id) — `new1` nonempty,
as all host-issued ids are — and does not
report `old1`.  The sync pass relabels `X` to `new1` and rewrites every
cross-reference to `old1`: `Y.parentId` becomes `new1`, `X`'s record
still lists `y1` as its child, the `roots` entry becomes `new1`, and the
`collapsed` entry becomes `new1` — nothing else changes except the
refreshed title/type metadata and recomputed levels. -/
theorem migration_preserves_structure
    (old1 new1 y1 t u tx ty1 ty2 : String)
    (h1 : old1 ≠ new1) (h2 : old1 ≠ y1) (h3 : new1 ≠ y1) (h4 : t ≠ u)
    (h5 : old1 ≠ "") (h6 : new1 ≠ "") :
    syncWithZoteroTabs 4 true [⟨new1, t, ty1⟩, ⟨y1, u, ty2⟩] none
        ⟨[(old1, ⟨old1, none, [y1], 0, true, t, tx, "tab", false⟩),
          (y1, ⟨y1, some old1, [], 1, false, u, tx, "tab", false⟩)],
         [old1], [old1]⟩
      = ⟨[(y1, ⟨y1, some new1, [], 1, false, u, ty2, "tab", false⟩),
          (new1, ⟨new1, none, [y1], 0, true, t, ty1, "tab", false⟩)],
         [new1], [new1]⟩ := by
  have h1' := h1.symm
  have h2' := h2.symm
  have h3' := h3.symm
  have h4' := h4.symm
  simp [syncWithZoteroTabs, syncTabStep, findMigrationSource, applyMigration, migGet,
    migSubst, syncRemovePass, syncSelectionPass, recalculateLevels, updateChildLevels,
    addTab, updateNode, mapGet, mapSet, mapDelete, setAdd, setDelete, optTruthy,
    List.erase, h1, h2, h3, h4, h5, h6, h1', h2', h3', h4']

/-- Witness for claim C3 at concrete ids and titles: node `"old1"`
(title `"Paper.pdf"`, child `"y1"`) migrates to the reported id
`"new1"`, and the child's stored parent pointer follows. -/
theorem migration_preserves_structure_witness :
    (mapGet (syncWithZoteroTabs 4 true
        [⟨"new1", "Paper.pdf", "reader"⟩, ⟨"y1", "Ydoc", "reader"⟩] none
        ⟨[("old1", ⟨"old1", none, ["y1"], 0, true, "Paper.pdf", "reader", "tab", false⟩),
          ("y1", ⟨"y1", some "old1", [], 1, false, "Ydoc", "reader", "tab", false⟩)],
         ["old1"], ["old1"]⟩).tabs "y1").map TabNode.parentId = some (some "new1") := by
  rw [migration_preserves_structure "old1" "new1" "y1" "Paper.pdf" "Ydoc"
    "reader" "reader" "reader" (by decide) (by decide) (by decide) (by decide)
    (by decide) (by decide)]
  rfl

theorem mapGet_mem {m : List (String × TabNode)} {k : String} {v : TabNode}
    (h : mapGet m k = some v) : (k, v) ∈ m := by
  induction m with
  | nil => simp [mapGet] at h
  | cons e rest ih =>
    obtain ⟨k', v'⟩ := e
    by_cases hk : k' = k
    · subst hk
      simp [mapGet] at h
      simp [h]
    · simp [mapGet, hk] at h
      exact List.mem_cons_of_mem _ (ih h)

theorem mapGet_eq_none_iff {m : List (String × TabNode)} {k : String} :
    mapGet m k = none ↔ k ∉ m.map Prod.fst := by
  induction m with
  | nil => simp [mapGet]
  | cons e rest ih =>
    obtain ⟨k', v'⟩ := e
    by_cases hk : k' = k
    · subst hk; simp [mapGet]
    · simp [mapGet, hk, ih, Ne.symm hk]

theorem mapSet_of_get_none {m : List (String × TabNode)} {k : String}
    (v : TabNode) (h : mapGet m k = none) : mapSet m k v = m ++ [(k, v)] := by
  induction m with
  | nil => rfl
  | cons e rest ih =>
    obtain ⟨k', v'⟩ := e
    by_cases hk : k' = k
    · subst hk; simp [mapGet] at h
    · simp [mapGet, hk] at h
      simp [mapSet, hk, ih h]

theorem keys_mapSet_of_get_some {m : List (String × TabNode)} {k : String} {n : TabNode}
    (v : TabNode) (h : mapGet m k = some n) :
    (mapSet m k v).map Prod.fst = m.map Prod.fst := by
  induction m with
  | nil => simp [mapGet] at h
  | cons e rest ih =>
    obtain ⟨k', v'⟩ := e
    by_cases hk : k' = k
    · subst hk; simp [mapSet]
    · simp [mapGet, hk] at h
      simp [mapSet, hk, ih h]

theorem mem_mapSet_of_nodup {m : List (String × TabNode)} {k : String} {n : TabNode}
    (v : TabNode) (hnd : (m.map Prod.fst).Nodup) (h : mapGet m k = some n)
    (e : String × TabNode) :
    e ∈ mapSet m k v ↔ e = (k, v) ∨ (e ∈ m ∧ e.1 ≠ k) := by
  induction m with
  | nil => simp [mapGet] at h
  | cons hd rest ih =>
    obtain ⟨k', v'⟩ := hd
    simp only [List.map_cons, List.nodup_cons] at hnd
    by_cases hk : k' = k
    · subst hk
      simp only [mapSet, if_pos rfl]
      constructor
      · intro he
        rcases List.mem_cons.mp he with h1 | h1
        · exact Or.inl h1
        · refine Or.inr ⟨List.mem_cons_of_mem _ h1, ?_⟩
          intro hek
          exact hnd.1 (hek ▸ List.mem_map_of_mem Prod.fst h1)
      · rintro (rfl | ⟨he, hne⟩)
        · exact List.mem_cons_self _ _
        · rcases List.mem_cons.mp he with h1 | h1
          · exact absurd (congrArg Prod.fst h1) hne
          · exact List.mem_cons_of_mem _ h1
    · simp only [mapGet, if_neg hk] at h
      simp only [mapSet, if_neg hk]
      have ihh := ih hnd.2 h
      constructor
      · intro he
        rcases List.mem_cons.mp he with h1 | h1
        · subst h1
          exact Or.inr ⟨List.mem_cons_self _ _, hk⟩
        · rcases ihh.mp h1 with h2 | ⟨ha, hb⟩
          · exact Or.inl h2
          · exact Or.inr ⟨List.mem_cons_of_mem _ ha, hb⟩
      · rintro (rfl | ⟨he, hne⟩)
        · exact List.mem_cons_of_mem _ (ihh.mpr (Or.inl rfl))
        · rcases List.mem_cons.mp he with h1 | h1
          · subst h1
            exact List.mem_cons_self _ _
          · exact List.mem_cons_of_mem _ (ihh.mpr (Or.inr ⟨h1, hne⟩))

theorem keys_mapDelete (m : List (String × TabNode)) (k : String) :
    (mapDelete m k).map Prod.fst = (m.map Prod.fst).filter (fun x => x ≠ k) := by
  induction m with
  | nil => rfl
  | cons e rest ih =>
    obtain ⟨k', v'⟩ := e
    by_cases hk : k' = k <;> simp [mapDelete, List.filter, hk, ih] <;>
      simpa [mapDelete] using ih

theorem mem_mapDelete {m : List (String × TabNode)} {k : String} {e : String × TabNode} :
    e ∈ mapDelete m k ↔ e ∈ m ∧ e.1 ≠ k := by
  simp [mapDelete, List.mem_filter]

theorem mem_setAdd {s : List String} {x y : String} :
    x ∈ setAdd s y ↔ x ∈ s ∨ x = y := by
  unfold setAdd
  by_cases h : y ∈ s
  · simp only [if_pos h]
    constructor
    · exact Or.inl
    · rintro (hx | rfl)
      · exact hx
      · exact h
  · simp [if_neg h]

theorem mem_setDelete {s : List String} {x y : String} :
    x ∈ setDelete s y ↔ x ∈ s ∧ x ≠ y := by
  simp [setDelete, List.mem_filter]

theorem foldl_proj_const {α γ : Type} (proj : TreeState → γ)
    (f : TreeState → α → TreeState) (l : List α) (S : TreeState)
    (hf : ∀ s a, a ∈ l → proj (f s a) = proj s) :
    proj (l.foldl f S) = proj S := by
  induction l generalizing S with
  | nil => rfl
  | cons a rest ih =>
    rw [List.foldl]
    rw [ih _ (fun s b hb => hf s b (List.mem_cons_of_mem _ hb))]
    exact hf S a (List.mem_cons_self _ _)

theorem foldl_pred_preserve {α : Type} (P : TreeState → Prop)
    (f : TreeState → α → TreeState) (l : List α) (S : TreeState)
    (hS : P S) (hf : ∀ s a, a ∈ l → P s → P (f s a)) :
    P (l.foldl f S) := by
  induction l generalizing S with
  | nil => exact hS
  | cons a rest ih =>
    exact ih _ (hf S a (List.mem_cons_self _ _) hS)
      (fun s b hb => hf s b (List.mem_cons_of_mem _ hb))

theorem map_stripE_mapSet {m : List (String × TabNode)} {k : String} {n : TabNode}
    (v : TabNode) (h : mapGet m k = some n)
    (hv : stripE (k, v) = stripE (k, n)) :
    (mapSet m k v).map stripE = m.map stripE := by
  induction m with
  | nil => simp [mapGet] at h
  | cons e rest ih =>
    obtain ⟨k', v'⟩ := e
    by_cases hk : k' = k
    · subst hk
      simp [mapGet] at h
      subst h
      simp [mapSet, hv]
    · simp only [mapGet, if_neg hk] at h
      simp only [mapSet, if_neg hk, List.map_cons, ih h]

theorem stripLevels_updateNode_level (S : TreeState) (k : String) (l : Nat) :
    stripLevels (updateNode S k (fun c => { c with level := l })) = stripLevels S := by
  unfold updateNode
  cases h : mapGet S.tabs k with
  | none => rfl
  | some n =>
    show stripLevels { S with tabs := mapSet S.tabs k { n with level := l } } = _
    unfold stripLevels
    simp only [TreeState.mk.injEq, and_true, true_and]
    exact map_stripE_mapSet _ h rfl

theorem stripLevels_updateChildLevels (fuel : Nat) (S : TreeState) (p : String) :
    stripLevels (updateChildLevels fuel S p) = stripLevels S := by
  induction fuel generalizing S p with
  | zero => rfl
  | succ fuel ih =>
    show stripLevels (updateChildLevels (fuel + 1) S p) = _
    unfold updateChildLevels
    cases h : mapGet S.tabs p with
    | none => rfl
    | some parent =>
      refine foldl_proj_const stripLevels _ parent.childIds S (fun s c _ => ?_)
      cases hc : mapGet s.tabs c with
      | none => rfl
      | some cnode =>
        simp only [hc]
        cases hp : mapGet s.tabs p with
        | none => simp only [hp]; exact ih s c
        | some pn =>
          simp only [hp]
          rw [ih _ c, stripLevels_updateNode_level]

theorem forall_mem_map_stripE (m : List (String × TabNode))
    (P : String × TabNode → Prop) (hP : ∀ e, P (stripE e) ↔ P e) :
    (∀ x ∈ m.map stripE, P x) ↔ (∀ e ∈ m, P e) := by
  constructor
  · intro h e he
    exact (hP e).mp (h _ (List.mem_map_of_mem _ he))
  · intro h x hx
    rcases List.mem_map.mp hx with ⟨e, he, rfl⟩
    exact (hP e).mpr (h e he)

theorem keys_eq_of_strip_eq {A B : TreeState}
    (h : stripLevels A = stripLevels B) :
    A.tabs.map Prod.fst = B.tabs.map Prod.fst := by
  have htabs : A.tabs.map stripE = B.tabs.map stripE := congrArg TreeState.tabs h
  have := congrArg (List.map Prod.fst) htabs
  simpa [List.map_map, Function.comp, stripE] using this

theorem collapsedLockstep_iff_of_strip_eq {A B : TreeState}
    (h : stripLevels A = stripLevels B) :
    CollapsedLockstep A ↔ CollapsedLockstep B := by
  have htabs : A.tabs.map stripE = B.tabs.map stripE := congrArg TreeState.tabs h
  have hcol : A.collapsed = B.collapsed := by
    have := congrArg TreeState.collapsed h
    simpa [stripLevels] using this
  have hkeys := keys_eq_of_strip_eq h
  unfold CollapsedLockstep
  rw [hcol, hkeys]
  refine and_congr ?_ Iff.rfl
  rw [← forall_mem_map_stripE A.tabs
    (fun e => ((Prod.snd e).collapsed = true ↔ Prod.fst e ∈ B.collapsed))
    (fun e => Iff.rfl)]
  rw [htabs]
  rw [forall_mem_map_stripE B.tabs
    (fun e => ((Prod.snd e).collapsed = true ↔ Prod.fst e ∈ B.collapsed))
    (fun e => Iff.rfl)]

theorem wellKeyed_iff_of_strip_eq {A B : TreeState}
    (h : stripLevels A = stripLevels B) : WellKeyed A ↔ WellKeyed B := by
  have htabs : A.tabs.map stripE = B.tabs.map stripE := congrArg TreeState.tabs h
  unfold WellKeyed
  rw [← forall_mem_map_stripE A.tabs (fun e => (Prod.snd e).id = Prod.fst e)
    (fun e => Iff.rfl)]
  rw [htabs]
  rw [forall_mem_map_stripE B.tabs (fun e => (Prod.snd e).id = Prod.fst e)
    (fun e => Iff.rfl)]

theorem treeOk_iff_of_strip_eq {A B : TreeState}
    (h : stripLevels A = stripLevels B) : TreeOk A ↔ TreeOk B := by
  unfold TreeOk MapKeysNodup
  rw [keys_eq_of_strip_eq h, collapsedLockstep_iff_of_strip_eq h,
    wellKeyed_iff_of_strip_eq h]

theorem treeOk_updateChildLevels {S : TreeState} (fuel : Nat) (p : String)
    (hS : TreeOk S) : TreeOk (updateChildLevels fuel S p) :=
  (treeOk_iff_of_strip_eq (stripLevels_updateChildLevels fuel S p)).mpr hS

theorem treeOk_updateNode (S : TreeState) (k : String) (f : TabNode → TabNode)
    (hcol : ∀ n, (f n).collapsed = n.collapsed) (hid : ∀ n, (f n).id = n.id)
    (hS : TreeOk S) : TreeOk (updateNode S k f) := by
  obtain ⟨⟨hc1, hc2⟩, hw, hnd⟩ := hS
  unfold updateNode
  cases hg : mapGet S.tabs k with
  | none => exact ⟨⟨hc1, hc2⟩, hw, hnd⟩
  | some n =>
    show TreeOk { S with tabs := mapSet S.tabs k (f n) }
    have hkm : (k, n) ∈ S.tabs := mapGet_mem hg
    have hkeys := keys_mapSet_of_get_some (f n) hg
    refine ⟨⟨?_, ?_⟩, ?_, ?_⟩
    · intro e he
      rcases (mem_mapSet_of_nodup (f n) hnd hg e).mp he with rfl | ⟨hem, _⟩
      · show (f n).collapsed = true ↔ k ∈ S.collapsed
        rw [hcol n]
        exact hc1 (k, n) hkm
      · exact hc1 e hem
    · intro c hc
      show c ∈ (mapSet S.tabs k (f n)).map Prod.fst
      rw [hkeys]
      exact hc2 c hc
    · intro e he
      rcases (mem_mapSet_of_nodup (f n) hnd hg e).mp he with rfl | ⟨hem, _⟩
      · show (f n).id = k
        rw [hid n]
        exact hw (k, n) hkm
      · exact hw e hem
    · show ((mapSet S.tabs k (f n)).map Prod.fst).Nodup
      rw [hkeys]
      exact hnd

theorem treeOk_collapse_one {S : TreeState} {k : String} {n : TabNode}
    (hg : mapGet S.tabs k = some n) (hS : TreeOk S) :
    TreeOk { S with tabs := mapSet S.tabs k { n with collapsed := true },
                    collapsed := setAdd S.collapsed k } := by
  obtain ⟨⟨hc1, hc2⟩, hw, hnd⟩ := hS
  have hkm : (k, n) ∈ S.tabs := mapGet_mem hg
  have hkeys := keys_mapSet_of_get_some ({ n with collapsed := true }) hg
  refine ⟨⟨?_, ?_⟩, ?_, ?_⟩
  · intro e he
    rcases (mem_mapSet_of_nodup _ hnd hg e).mp he with rfl | ⟨hem, hne⟩
    · simp [mem_setAdd]
    · show e.2.collapsed = true ↔ e.1 ∈ setAdd S.collapsed k
      rw [mem_setAdd]
      constructor
      · intro hx
        exact Or.inl ((hc1 e hem).mp hx)
      · rintro (hx | hx)
        · exact (hc1 e hem).mpr hx
        · exact absurd hx hne
  · intro c hc
    show c ∈ (mapSet S.tabs k _).map Prod.fst
    rw [hkeys]
    rcases mem_setAdd.mp hc with hx | rfl
    · exact hc2 c hx
    · exact List.mem_map_of_mem Prod.fst hkm
  · intro e he
    rcases (mem_mapSet_of_nodup _ hnd hg e).mp he with rfl | ⟨hem, _⟩
    · exact hw (k, n) hkm
    · exact hw e hem
  · show ((mapSet S.tabs k _).map Prod.fst).Nodup
    rw [hkeys]
    exact hnd

theorem treeOk_expand_one {S : TreeState} {k : String} {n : TabNode}
    (hg : mapGet S.tabs k = some n) (hS : TreeOk S) :
    TreeOk { S with tabs := mapSet S.tabs k { n with collapsed := false },
                    collapsed := setDelete S.collapsed k } := by
  obtain ⟨⟨hc1, hc2⟩, hw, hnd⟩ := hS
  have hkm : (k, n) ∈ S.tabs := mapGet_mem hg
  have hkeys := keys_mapSet_of_get_some ({ n with collapsed := false }) hg
  refine ⟨⟨?_, ?_⟩, ?_, ?_⟩
  · intro e he
    rcases (mem_mapSet_of_nodup _ hnd hg e).mp he with rfl | ⟨hem, hne⟩
    · simp [mem_setDelete]
    · show e.2.collapsed = true ↔ e.1 ∈ setDelete S.collapsed k
      rw [mem_setDelete]
      constructor
      · intro hx
        exact ⟨(hc1 e hem).mp hx, hne⟩
      · rintro ⟨hx, _⟩
        exact (hc1 e hem).mpr hx
  · intro c hc
    show c ∈ (mapSet S.tabs k _).map Prod.fst
    rw [hkeys]
    exact hc2 c (mem_setDelete.mp hc).1
  · intro e he
    rcases (mem_mapSet_of_nodup _ hnd hg e).mp he with rfl | ⟨hem, _⟩
    · exact hw (k, n) hkm
    · exact hw e hem
  · show ((mapSet S.tabs k _).map Prod.fst).Nodup
    rw [hkeys]
    exact hnd

theorem treeOk_autoCollapseSiblings (S : TreeState) (expandedId : String)
    (hS : TreeOk S) : TreeOk (autoCollapseSiblings S expandedId) := by
  unfold autoCollapseSiblings
  cases hg : mapGet S.tabs expandedId with
  | none => exact hS
  | some node =>
    refine foldl_pred_preserve TreeOk _ _ S hS (fun s sid _ hs => ?_)
    by_cases hsid : sid = expandedId
    · simp only [if_pos hsid]
      exact hs
    · simp only [if_neg hsid]
      cases hgs : mapGet s.tabs sid with
      | none => exact hs
      | some sib =>
        by_cases hch : sib.childIds.length > 0
        · simp only [if_pos hch]
          have := treeOk_collapse_one hgs hs
          simpa [updateNode, hgs] using this
        · simp only [if_neg hch]
          exact hs

theorem treeOk_toggleCollapsed (ac : Bool) (S : TreeState) (id : String)
    (hS : TreeOk S) : TreeOk (toggleCollapsed ac S id) := by
  unfold toggleCollapsed
  cases hg : mapGet S.tabs id with
  | none => exact hS
  | some node =>
    by_cases hlen : node.childIds.length = 0
    · simp only [if_pos hlen]
      exact hS
    · simp only [if_neg hlen]
      by_cases hcoll : node.collapsed
      · simp only [hcoll, Bool.not_true, if_false, Bool.false_eq_true]
        have := treeOk_expand_one hg hS
        have h2 : TreeOk ({ (updateNode S id fun n => { n with collapsed := false }) with
            collapsed := setDelete (updateNode S id fun n =>
              { n with collapsed := false }).collapsed id }) := by
          simpa [updateNode, hg] using this
        by_cases hac : ac
        · simp only [if_pos hac]
          exact treeOk_autoCollapseSiblings _ _ h2
        · simp only [if_neg hac]
          exact h2
      · simp only [hcoll, Bool.not_false, if_true]
        have := treeOk_collapse_one hg hS
        simpa [updateNode, hg] using this

theorem treeOk_collapseAll (S : TreeState) (hS : TreeOk S) :
    TreeOk (collapseAll S) := by
  unfold collapseAll
  refine foldl_pred_preserve TreeOk _ _ S hS (fun s k _ hs => ?_)
  cases hg : mapGet s.tabs k with
  | none => exact hs
  | some node =>
    by_cases hch : node.childIds.length > 0
    · simp only [if_pos hch]
      have hid : node.id = k := hs.2.1 (k, node) (mapGet_mem hg)
      have := treeOk_collapse_one hg hs
      rw [← hid] at this
      simpa [updateNode, hg, hid] using this
    · simp only [if_neg hch]
      exact hs

theorem treeOk_expandAll (S : TreeState) (hS : TreeOk S) :
    TreeOk (expandAll S) := by
  obtain ⟨⟨_, _⟩, hw, hnd⟩ := hS
  have hkeys : (S.tabs.map (fun e => (e.1, { e.2 with collapsed := false }))).map Prod.fst
      = S.tabs.map Prod.fst := by
    simp [List.map_map, Function.comp]
  refine ⟨⟨?_, ?_⟩, ?_, ?_⟩
  · intro e he
    rcases List.mem_map.mp he with ⟨e0, _, rfl⟩
    simp [expandAll]
  · intro c hc
    simp [expandAll] at hc
  · intro e he
    rcases List.mem_map.mp he with ⟨e0, he0, rfl⟩
    exact hw e0 he0
  · show ((S.tabs.map _).map Prod.fst).Nodup
    rw [hkeys]
    exact hnd

theorem treeOk_append_fresh (S : TreeState) (id : String) (v : TabNode)
    (r : List String) (hg : mapGet S.tabs id = none) (hid : v.id = id)
    (hcol : v.collapsed = false) (hS : TreeOk S) :
    TreeOk { S with tabs := S.tabs ++ [(id, v)], roots := r } := by
  obtain ⟨⟨hc1, hc2⟩, hw, hnd⟩ := hS
  have hnotin : id ∉ S.tabs.map Prod.fst := mapGet_eq_none_iff.mp hg
  refine ⟨⟨?_, ?_⟩, ?_, ?_⟩
  · intro e he
    rcases List.mem_append.mp he with hem | hem
    · exact hc1 e hem
    · rcases List.mem_singleton.mp hem with rfl
      show v.collapsed = true ↔ id ∈ S.collapsed
      rw [hcol]
      constructor
      · intro hx
        exact absurd hx (by decide)
      · intro hx
        exact absurd (hc2 id hx) hnotin
  · intro c hc
    have := hc2 c hc
    simp only [List.map_append, List.mem_append]
    exact Or.inl this
  · intro e he
    rcases List.mem_append.mp he with hem | hem
    · exact hw e hem
    · rcases List.mem_singleton.mp hem with rfl
      exact hid
  · show ((S.tabs ++ [(id, v)]).map Prod.fst).Nodup
    simp only [List.map_append, List.map_cons, List.map_nil]
    exact List.Nodup.append hnd (List.nodup_singleton id)
      (by
        intro a ha hb
        rcases List.mem_singleton.mp hb with rfl
        exact hnotin ha)

theorem treeOk_addTab (S : TreeState) (id t ty : String) (p : Option String)
    (hg : mapGet S.tabs id = none) (hS : TreeOk S) :
    TreeOk (addTab S id t ty p) := by
  cases hp : optTruthy p with
  | some pid =>
    cases hgp : mapGet S.tabs pid with
    | some parent =>
      have hS' := treeOk_updateNode S pid
        (fun q => { q with childIds := q.childIds ++ [id] }) (fun _ => rfl) (fun _ => rfl) hS
      have hkeys : (updateNode S pid
          (fun q => { q with childIds := q.childIds ++ [id] })).tabs.map Prod.fst
          = S.tabs.map Prod.fst := by
        unfold updateNode
        rw [hgp]
        exact keys_mapSet_of_get_some _ hgp
      have hg' : mapGet (updateNode S pid
          (fun q => { q with childIds := q.childIds ++ [id] })).tabs id = none := by
        rw [mapGet_eq_none_iff, hkeys]
        exact mapGet_eq_none_iff.mp hg
      simp only [addTab, hp, hgp]
      rw [mapSet_of_get_none _ hg']
      exact treeOk_append_fresh _ id _ _ hg' rfl rfl hS'
    | none =>
      simp only [addTab, hp, hgp]
      rw [mapSet_of_get_none _ hg]
      exact treeOk_append_fresh S id _ _ hg rfl rfl hS
  | none =>
    simp only [addTab, hp]
    rw [mapSet_of_get_none _ hg]
    exact treeOk_append_fresh S id _ _ hg rfl rfl hS

theorem treeOk_createGroup (S : TreeState) (gid t : String) (p : Option String)
    (hg : mapGet S.tabs gid = none) (hS : TreeOk S) :
    TreeOk (createGroup S gid t p) := by
  cases hp : optTruthy p with
  | some pid =>
    cases hgp : mapGet S.tabs pid with
    | some parent =>
      have hS' := treeOk_updateNode S pid
        (fun q => { q with childIds := q.childIds ++ [gid] }) (fun _ => rfl) (fun _ => rfl) hS
      have hkeys : (updateNode S pid
          (fun q => { q with childIds := q.childIds ++ [gid] })).tabs.map Prod.fst
          = S.tabs.map Prod.fst := by
        unfold updateNode
        rw [hgp]
        exact keys_mapSet_of_get_some _ hgp
      have hg' : mapGet (updateNode S pid
          (fun q => { q with childIds := q.childIds ++ [gid] })).tabs gid = none := by
        rw [mapGet_eq_none_iff, hkeys]
        exact mapGet_eq_none_iff.mp hg
      simp only [createGroup, hp, hgp]
      rw [mapSet_of_get_none _ hg']
      exact treeOk_append_fresh _ gid _ _ hg' rfl rfl hS'
    | none =>
      simp only [createGroup, hp, hgp]
      rw [mapSet_of_get_none _ hg]
      exact treeOk_append_fresh S gid _ _ hg rfl rfl hS
  | none =>
    simp only [createGroup, hp]
    rw [mapSet_of_get_none _ hg]
    exact treeOk_append_fresh S gid _ _ hg rfl rfl hS

theorem treeOk_set_roots (S : TreeState) (r : List String) (hS : TreeOk S) :
    TreeOk { S with roots := r } := hS

theorem treeOk_delete (S : TreeState) (id : String) (hS : TreeOk S) :
    TreeOk { S with collapsed := setDelete S.collapsed id,
                    tabs := mapDelete S.tabs id } := by
  obtain ⟨⟨hc1, hc2⟩, hw, hnd⟩ := hS
  refine ⟨⟨?_, ?_⟩, ?_, ?_⟩
  · intro e he
    have hme := mem_mapDelete.mp he
    show e.2.collapsed = true ↔ e.1 ∈ setDelete S.collapsed id
    rw [mem_setDelete]
    constructor
    · intro hx
      exact ⟨(hc1 e hme.1).mp hx, hme.2⟩
    · rintro ⟨hx, _⟩
      exact (hc1 e hme.1).mpr hx
  · intro c hc
    obtain ⟨hcm, hcne⟩ := mem_setDelete.mp hc
    show c ∈ (mapDelete S.tabs id).map Prod.fst
    rw [keys_mapDelete]
    exact List.mem_filter.mpr ⟨hc2 c hcm, by simpa using hcne⟩
  · intro e he
    exact hw e (mem_mapDelete.mp he).1
  · show ((mapDelete S.tabs id).map Prod.fst).Nodup
    rw [keys_mapDelete]
    exact hnd.filter _

theorem treeOk_removeNodeFromTree (fuel : Nat) (S : TreeState) (id : String)
    (promote : Bool) (hS : TreeOk S) :
    TreeOk (removeNodeFromTree fuel S id promote) := by
  cases hg : mapGet S.tabs id with
  | none =>
    simp only [removeNodeFromTree, hg]
    exact hS
  | some node =>
    simp only [removeNodeFromTree, hg]
    refine treeOk_delete _ id ?_
    have hS1 : TreeOk (if promote then
        node.childIds.foldl
          (fun s childId =>
            match mapGet s.tabs childId with
            | none => s
            | some _ =>
              let s := updateNode s childId
                (fun c => { c with parentId := node.parentId, level := node.level })
              let s := updateChildLevels fuel s childId
              match optTruthy node.parentId with
              | some gp =>
                updateNode s gp (fun g => { g with childIds := g.childIds ++ [childId] })
              | none =>
                if childId ∈ s.roots then s else { s with roots := s.roots ++ [childId] })
          S
      else S) := by
      by_cases hp : promote
      · simp only [if_pos hp]
        refine foldl_pred_preserve TreeOk _ _ S hS (fun s c _ hs => ?_)
        cases hgc : mapGet s.tabs c with
        | none => exact hs
        | some cn =>
          have h1 := treeOk_updateNode s c
            (fun x => { x with parentId := node.parentId, level := node.level })
            (fun _ => rfl) (fun _ => rfl) hs
          have h2 := treeOk_updateChildLevels fuel c h1
          cases ho : optTruthy node.parentId with
          | some gp =>
            exact treeOk_updateNode _ gp
              (fun g => { g with childIds := g.childIds ++ [c] })
              (fun _ => rfl) (fun _ => rfl) h2
          | none =>
            by_cases hr : c ∈ (updateChildLevels fuel (updateNode s c
                (fun x => { x with parentId := node.parentId, level := node.level })) c).roots
            · simp only [if_pos hr]
              exact h2
            · simp only [if_neg hr]
              exact treeOk_set_roots _ _ h2
      · simp only [if_neg hp]
        exact hS
    cases ho : optTruthy node.parentId with
    | some pid =>
      rw [ho] at hS1
      exact treeOk_updateNode _ pid (fun p => { p with childIds := p.childIds.erase id })
        (fun _ => rfl) (fun _ => rfl) hS1
    | none =>
      rw [ho] at hS1
      exact treeOk_set_roots _ _ hS1

/-- Claim C7.  On any store satisfying the lockstep invariant (each
node's `collapsed` flag agrees with membership of its key in the
`TreeStructure.collapsed` set, and the set references only live nodes),
with well-keyed entries and unique map keys, every Mutation Engine
operation preserves the lockstep on return: `toggleCollapsed` (with the
auto-collapse preference either way), `autoCollapseSiblings`,
`collapseAll`, `expandAll`, node creation (`addTab` and `createGroup`
for a fresh id), and node removal (`removeNodeFromTree`). -/
theorem collapsed_lockstep_preserved (S : TreeState)
    (h1 : CollapsedLockstep S) (h2 : WellKeyed S) (h3 : MapKeysNodup S) :
    (∀ ac id, CollapsedLockstep (toggleCollapsed ac S id)) ∧
    (∀ id, CollapsedLockstep (autoCollapseSiblings S id)) ∧
    CollapsedLockstep (collapseAll S) ∧
    CollapsedLockstep (expandAll S) ∧
    (∀ id t ty p, mapGet S.tabs id = none → CollapsedLockstep (addTab S id t ty p)) ∧
    (∀ gid t p, mapGet S.tabs gid = none → CollapsedLockstep (createGroup S gid t p)) ∧
    (∀ fuel id promote, CollapsedLockstep (removeNodeFromTree fuel S id promote)) := by
  have hS : TreeOk S := ⟨h1, h2, h3⟩
  exact ⟨fun ac id => (treeOk_toggleCollapsed ac S id hS).1,
         fun id => (treeOk_autoCollapseSiblings S id hS).1,
         (treeOk_collapseAll S hS).1,
         (treeOk_expandAll S hS).1,
         fun id t ty p hg => (treeOk_addTab S id t ty p hg hS).1,
         fun gid t p hg => (treeOk_createGroup S gid t p hg hS).1,
         fun fuel id promote => (treeOk_removeNodeFromTree fuel S id promote hS).1⟩

/-- Witness for claim C7 on a concrete two-node store (collapsed parent
`"a"` with child `"b"`): toggling `"a"` and removing `"b"` both leave
flag and set in lockstep. -/
theorem collapsed_lockstep_preserved_witness :
    CollapsedLockstep (toggleCollapsed false
      ⟨[("a", ⟨"a", none, ["b"], 0, true, "A", "reader", "tab", false⟩),
        ("b", ⟨"b", some "a", [], 1, false, "B", "reader", "tab", false⟩)],
       ["a"], ["a"]⟩ "a") ∧
    CollapsedLockstep (removeNodeFromTree 3
      ⟨[("a", ⟨"a", none, ["b"], 0, true, "A", "reader", "tab", false⟩),
        ("b", ⟨"b", some "a", [], 1, false, "B", "reader", "tab", false⟩)],
       ["a"], ["a"]⟩ "b" true) :=
  ⟨(collapsed_lockstep_preserved _ (by unfold CollapsedLockstep; decide)
      (by unfold WellKeyed; decide) (by unfold MapKeysNodup; decide)).1 false "a",
   (collapsed_lockstep_preserved _ (by unfold CollapsedLockstep; decide)
      (by unfold WellKeyed; decide)
      (by unfold MapKeysNodup; decide)).2.2.2.2.2.2 3 "b" true⟩

theorem foldl_setAdd_of_disjoint (l acc : List String)
    (hdis : ∀ x ∈ l, x ∉ acc) (hnd : l.Nodup) :
    l.foldl setAdd acc = acc ++ l := by
  induction l generalizing acc with
  | nil => simp
  | cons x rest ih =>
    simp only [List.foldl]
    have hx : x ∉ acc := hdis x (List.mem_cons_self _ _)
    have hadd : setAdd acc x = acc ++ [x] := by simp [setAdd, hx]
    rw [hadd]
    rw [ih (acc ++ [x])
      (fun y hy => by
        simp only [List.mem_append, List.mem_singleton]
        rintro (hya | rfl)
        · exact hdis y (List.mem_cons_of_mem _ hy) hya
        · exact (List.nodup_cons.mp hnd).1 hy)
      (List.nodup_cons.mp hnd).2]
    simp

theorem setFromList_eq_of_nodup {l : List String} (hnd : l.Nodup) :
    setFromList l = l := by
  unfold setFromList
  simpa using foldl_setAdd_of_disjoint l [] (by simp) hnd

theorem load_fold_append (tds : List PersistedTab) (S0 : TreeState)
    (hfresh : ∀ td ∈ tds, mapGet S0.tabs td.id = none)
    (hnd : (tds.map (fun td => td.id)).Nodup) :
    tds.foldl loadTabStep S0 = { S0 with tabs := S0.tabs ++ tds.map (fun td =>
      (td.id, ⟨td.id, td.parentId, td.childIds, 0, td.collapsed, td.title, td.ty,
        (if td.nodeType = "" then "tab" else td.nodeType), false⟩)) } := by
  induction tds generalizing S0 with
  | nil => simp
  | cons td rest ih =>
    simp only [List.foldl]
    have hg : mapGet S0.tabs td.id = none := hfresh td (List.mem_cons_self _ _)
    have hstep : loadTabStep S0 td = { S0 with tabs := S0.tabs ++ [(td.id,
        ⟨td.id, td.parentId, td.childIds, 0, td.collapsed, td.title, td.ty,
          (if td.nodeType = "" then "tab" else td.nodeType), false⟩)] } := by
      unfold loadTabStep
      rw [hg]
      simp only [Option.isSome_none, Bool.false_eq_true, if_false]
      rw [mapSet_of_get_none _ hg]
    rw [hstep]
    rw [ih _
      (fun td' htd' => by
        rw [mapGet_eq_none_iff]
        simp only [List.map_append, List.mem_append, List.map_cons, List.map_nil]
        rintro (hin | hin)
        · exact mapGet_eq_none_iff.mp (hfresh td' (List.mem_cons_of_mem _ htd')) hin
        · have heq : td'.id = td.id := List.mem_singleton.mp hin
          have hmem : td'.id ∈ rest.map (fun td => td.id) :=
            List.mem_map_of_mem (fun td => td.id) htd'
          rw [heq] at hmem
          exact (List.nodup_cons.mp hnd).1 hmem
      )
      (List.nodup_cons.mp hnd).2]
    simp [List.append_assoc]

/-- Claim C8.  Round-trip persistence: serialising a valid store
(`saveTreeStructure`'s document) and loading the result into an empty
store reproduces the tree exactly up to the transient fields — same
entry order, same `roots` order, same `collapsed` set, and per node the
same `parentId`, `childIds` order, `title`, `type` and `nodeType`, with
`level` reset to `0` and `selected` cleared; and whenever the original
levels are recomputable from the roots (`recalculateLevels` on the
level-stripped store restores them), running `recalculateLevels` after
the load restores the original levels too. -/
theorem save_load_round_trip (S : TreeState) (fuel : Nat)
    (hwk : WellKeyed S) (hnd : MapKeysNodup S) (hcnd : S.collapsed.Nodup)
    (hnt : ∀ e ∈ S.tabs, (Prod.snd e).nodeType ≠ "") :
    loadTreeStructure (saveTreeStructure S) emptyState = stripTransient S ∧
    (recalculateLevels fuel (stripTransient S) = unselect S →
      recalculateLevels fuel (loadTreeStructure (saveTreeStructure S) emptyState)
        = unselect S) := by
  have hkeys : ((saveTreeStructure S).tabs.map (fun td => td.id))
      = S.tabs.map Prod.fst := by
    simp [saveTreeStructure, List.map_map, Function.comp]
  have hload := load_fold_append (saveTreeStructure S).tabs
    ({ emptyState with roots := (saveTreeStructure S).roots,
                       collapsed := setFromList (saveTreeStructure S).collapsed })
    (fun td _ => rfl) (by rw [hkeys]; exact hnd)
  have hcol2 : setFromList (saveTreeStructure S).collapsed = S.collapsed :=
    setFromList_eq_of_nodup hcnd
  have hmap : (saveTreeStructure S).tabs.map (fun td =>
      ((td.id, ⟨td.id, td.parentId, td.childIds, 0, td.collapsed, td.title, td.ty,
        (if td.nodeType = "" then "tab" else td.nodeType), false⟩) :
        String × TabNode))
      = S.tabs.map (fun e => (e.1, { e.2 with level := 0, selected := false })) := by
    show (S.tabs.map _).map _ = _
    rw [List.map_map]
    refine List.map_congr_left (fun e he => ?_)
    obtain ⟨k, n⟩ := e
    have hid : n.id = k := hwk (k, n) he
    have hnt' : n.nodeType ≠ "" := hnt (k, n) he
    simp [Function.comp, hid, if_neg hnt']
  have part1 : loadTreeStructure (saveTreeStructure S) emptyState = stripTransient S := by
    show (saveTreeStructure S).tabs.foldl loadTabStep
      { emptyState with roots := (saveTreeStructure S).roots,
                        collapsed := setFromList (saveTreeStructure S).collapsed }
      = stripTransient S
    rw [hload, hcol2, hmap]
    rfl
  refine ⟨part1, fun hrec => ?_⟩
  rw [part1]
  exact hrec

/-- Witness for claim C8 on a concrete two-node store with consistent
levels: the round trip reproduces the structure and recomputing levels
after the load restores them. -/
theorem save_load_round_trip_witness :
    loadTreeStructure (saveTreeStructure
        ⟨[("a", ⟨"a", none, ["b"], 0, true, "A", "reader", "tab", true⟩),
          ("b", ⟨"b", some "a", [], 1, false, "B", "reader", "tab", false⟩)],
         ["a"], ["a"]⟩) emptyState
      = stripTransient
        ⟨[("a", ⟨"a", none, ["b"], 0, true, "A", "reader", "tab", true⟩),
          ("b", ⟨"b", some "a", [], 1, false, "B", "reader", "tab", false⟩)],
         ["a"], ["a"]⟩ ∧
    recalculateLevels 3 (loadTreeStructure (saveTreeStructure
        ⟨[("a", ⟨"a", none, ["b"], 0, true, "A", "reader", "tab", true⟩),
          ("b", ⟨"b", some "a", [], 1, false, "B", "reader", "tab", false⟩)],
         ["a"], ["a"]⟩) emptyState)
      = unselect
        ⟨[("a", ⟨"a", none, ["b"], 0, true, "A", "reader", "tab", true⟩),
          ("b", ⟨"b", some "a", [], 1, false, "B", "reader", "tab", false⟩)],
         ["a"], ["a"]⟩ := by
  have h := save_load_round_trip
    ⟨[("a", ⟨"a", none, ["b"], 0, true, "A", "reader", "tab", true⟩),
      ("b", ⟨"b", some "a", [], 1, false, "B", "reader", "tab", false⟩)],
     ["a"], ["a"]⟩ 3
    (by unfold WellKeyed; decide) (by unfold MapKeysNodup; decide)
    (by decide) (by decide)
  exact ⟨h.1, h.2 (by decide)⟩

theorem mapGet_mapSet_ne {m : List (String × TabNode)} {k k' : String} (v : TabNode)
    (h : k' ≠ k) : mapGet (mapSet m k v) k' = mapGet m k' := by
  induction m with
  | nil => simp [mapSet, mapGet, Ne.symm h]
  | cons e rest ih =>
    obtain ⟨k0, v0⟩ := e
    by_cases hk : k0 = k
    · subst hk
      simp [mapSet, mapGet, Ne.symm h]
    · simp [mapSet, mapGet, hk, ih]

theorem sameShape_refl (S : TreeState) : SameShape S S := ⟨rfl, fun _ => rfl⟩

theorem sameShape_trans {A B C : TreeState} (h1 : SameShape A B) (h2 : SameShape B C) :
    SameShape A C :=
  ⟨h1.1.trans h2.1, fun k => (h1.2 k).trans (h2.2 k)⟩

theorem sameShape_updateNode (S : TreeState) (k : String) (f : TabNode → TabNode)
    (hf : ∀ n, projShape (f n) = projShape n) :
    SameShape (updateNode S k f) S := by
  unfold updateNode
  cases hg : mapGet S.tabs k with
  | none => exact sameShape_refl S
  | some n =>
    refine ⟨rfl, fun k' => ?_⟩
    show (mapGet (mapSet S.tabs k (f n)) k').map projShape = _
    by_cases hk : k' = k
    · subst hk
      rw [mapGet_mapSet_self, hg]
      simp [hf n]
    · rw [mapGet_mapSet_ne _ hk]

theorem sameShape_set_collapsed (S : TreeState) (x : List String) :
    SameShape { S with collapsed := x } S := ⟨rfl, fun _ => rfl⟩

theorem sameShape_autoCollapseSiblings (S : TreeState) (expandedId : String) :
    SameShape (autoCollapseSiblings S expandedId) S := by
  unfold autoCollapseSiblings
  cases hg : mapGet S.tabs expandedId with
  | none => exact sameShape_refl S
  | some node =>
    refine foldl_pred_preserve (fun s => SameShape s S) _ _ S (sameShape_refl S)
      (fun s sid _ hs => ?_)
    by_cases hsid : sid = expandedId
    · simp only [if_pos hsid]
      exact hs
    · simp only [if_neg hsid]
      cases hgs : mapGet s.tabs sid with
      | none => exact hs
      | some sib =>
        by_cases hch : sib.childIds.length > 0
        · simp only [if_pos hch]
          refine sameShape_trans (sameShape_trans (sameShape_set_collapsed _ _) ?_) hs
          exact sameShape_updateNode s sid _ (fun _ => rfl)
        · simp only [if_neg hch]
          exact hs

theorem sameShape_toggleCollapsed (ac : Bool) (S : TreeState) (c : String) :
    SameShape (toggleCollapsed ac S c) S := by
  unfold toggleCollapsed
  cases hg : mapGet S.tabs c with
  | none => exact sameShape_refl S
  | some node =>
    by_cases hlen : node.childIds.length = 0
    · simp only [if_pos hlen]
      exact sameShape_refl S
    · simp only [if_neg hlen]
      by_cases hcoll : node.collapsed
      · simp only [hcoll, Bool.not_true, Bool.false_eq_true, if_false]
        have base : SameShape ({ (updateNode S c fun n => { n with collapsed := false }) with
            collapsed := setDelete (updateNode S c fun n =>
              { n with collapsed := false }).collapsed c }) S :=
          sameShape_trans (sameShape_set_collapsed _ _)
            (sameShape_updateNode S c _ (fun _ => rfl))
        by_cases hac : ac
        · simp only [if_pos hac]
          exact sameShape_trans (sameShape_autoCollapseSiblings _ _) base
        · simp only [if_neg hac]
          exact base
      · simp only [hcoll, Bool.not_false, if_true]
        exact sameShape_trans (sameShape_set_collapsed _ _)
          (sameShape_updateNode S c _ (fun _ => rfl))

theorem repTree_of_sameShape {A S : TreeState} (hsh : SameShape A S)
    {p : Option String} {t : FTree} (h : RepTree S p t) : RepTree A p t := by
  induction h with
  | node p i cs n hne hget hid hpar hch hcs ih =>
    have hmk := hsh.2 i
    rw [hget] at hmk
    cases hm : mapGet A.tabs i with
    | none => rw [hm] at hmk; simp at hmk
    | some n' =>
      rw [hm] at hmk
      simp only [Option.map_some', Option.some.injEq] at hmk
      have hid' : n'.id = n.id := congrArg Prod.fst hmk
      have hpar' : n'.parentId = n.parentId :=
        congrArg (fun x => x.2.1) hmk
      have hch' : n'.childIds = n.childIds :=
        congrArg (fun x => x.2.2) hmk
      exact RepTree.node p i cs n' hne hm (hid' ▸ hid) (hpar' ▸ hpar) (hch' ▸ hch) ih

theorem repForest_of_sameShape {A S : TreeState} (hsh : SameShape A S)
    {F : List FTree} (h : RepForest S F) : RepForest A F :=
  ⟨hsh.1 ▸ h.1, fun t ht => repTree_of_sameShape hsh (h.2 t ht)⟩

theorem foldl_append_acc {α β : Type} (g : α → List β) (l : List α) (init : List β) :
    l.foldl (fun acc c => acc ++ g c) init
      = init ++ l.foldl (fun acc c => acc ++ g c) [] := by
  induction l generalizing init with
  | nil => simp
  | cons a rest ih =>
    simp only [List.foldl]
    rw [ih (init ++ g a), ih (([] : List β) ++ g a)]
    simp [List.append_assoc]

theorem height_pos (t : FTree) : 1 ≤ t.height := by
  cases t with
  | node i cs =>
    show 1 ≤ heightList cs + 1
    exact Nat.le_add_left 1 _

theorem height_le_heightList {c : FTree} {cs : List FTree} (h : c ∈ cs) :
    c.height ≤ heightList cs := by
  induction cs with
  | nil => cases h
  | cons d rest ih =>
    rcases List.mem_cons.mp h with rfl | h'
    · exact le_max_left _ _
    · exact le_trans (ih h') (le_max_right _ _)

theorem mem_flatIdsList {d : String} {cs : List FTree} :
    d ∈ flatIdsList cs ↔ ∃ c ∈ cs, d ∈ c.flatIds := by
  induction cs with
  | nil => simp [flatIdsList]
  | cons c rest ih =>
    show d ∈ c.flatIds ++ flatIdsList rest ↔ _
    simp [List.mem_append, ih]

mutual

theorem aw_tree (t : FTree) : ∀ (S : TreeState) (p : Option String) (hid : Bool)
    (fuel : Nat), RepTree S p t → t.height ≤ fuel →
    (addWithChildren fuel S t.rootId hid).map TabNode.id = t.flatIds := by
  match t with
  | .node i cs =>
    intro S p hid fuel hrep hfuel
    match fuel with
    | 0 =>
      exact absurd hfuel (by
        show ¬ (heightList cs + 1 ≤ 0)
        omega)
    | fuel' + 1 =>
      cases hrep with
      | node _ _ _ n hne hget hid' hpar hch hcs =>
        show (addWithChildren (fuel' + 1) S i hid).map TabNode.id = i :: flatIdsList cs
        unfold addWithChildren
        rw [hget]
        simp only [List.map_cons, hid']
        rw [hch]
        congr 1
        exact aw_forest cs S (some i) (hid || n.collapsed) fuel' hcs
          (by
            have : heightList cs + 1 ≤ fuel' + 1 := hfuel
            omega)

theorem aw_forest (cs : List FTree) : ∀ (S : TreeState) (p : Option String)
    (hid : Bool) (fuel : Nat), (∀ c ∈ cs, RepTree S p c) → heightList cs ≤ fuel →
    ((cs.map FTree.rootId).foldl
        (fun acc c => acc ++ addWithChildren fuel S c hid) []).map TabNode.id
      = flatIdsList cs := by
  match cs with
  | [] =>
    intro S p hid fuel _ _
    rfl
  | c :: rest =>
    intro S p hid fuel hall hfuel
    show ((c.rootId :: rest.map FTree.rootId).foldl
        (fun acc x => acc ++ addWithChildren fuel S x hid) []).map TabNode.id
      = c.flatIds ++ flatIdsList rest
    simp only [List.foldl, List.nil_append]
    rw [foldl_append_acc (fun x => addWithChildren fuel S x hid) (rest.map FTree.rootId)]
    rw [List.map_append]
    congr 1
    · exact aw_tree c S p hid fuel (hall c (List.mem_cons_self _ _))
        (le_trans (height_le_heightList (List.mem_cons_self _ _)) hfuel)
    · exact aw_forest rest S p hid fuel
        (fun x hx => hall x (List.mem_cons_of_mem _ hx))
        (le_trans (le_max_right _ _) hfuel)

end

theorem isTabVisibleWalk_false_mono {S : TreeState} :
    ∀ {f g : Nat} {cur : Option String}, f ≤ g →
    isTabVisibleWalk f S cur = false → isTabVisibleWalk g S cur = false := by
  intro f
  induction f with
  | zero =>
    intro g cur _ hfalse
    simp [isTabVisibleWalk] at hfalse
  | succ f' ih =>
    intro g cur hle hfalse
    match g, hle with
    | g' + 1, hle =>
      unfold isTabVisibleWalk at hfalse ⊢
      cases ho : optTruthy cur with
      | none =>
        simp only [ho] at hfalse
        exact Bool.noConfusion hfalse
      | some cid =>
        simp only [ho] at hfalse ⊢
        cases hm : mapGet S.tabs cid with
        | none =>
          simp only [hm] at hfalse
          exact Bool.noConfusion hfalse
        | some parent =>
          simp only [hm] at hfalse ⊢
          by_cases hcol : parent.collapsed
          · simp [hcol]
          · simp only [hcol, Bool.false_eq_true, if_false] at hfalse ⊢
            exact ih (Nat.succ_le_succ_iff.mp hle) hfalse

theorem repTree_node_inv {S : TreeState} {p : Option String} {i : String}
    {cs : List FTree} (h : RepTree S p (.node i cs)) :
    ∃ n, i ≠ "" ∧ mapGet S.tabs i = some n ∧ n.id = i ∧ n.parentId = p ∧
      n.childIds = cs.map FTree.rootId ∧ ∀ c ∈ cs, RepTree S (some i) c := by
  cases h with
  | node p i cs n hne hget hid hpar hch hcs => exact ⟨n, hne, hget, hid, hpar, hch, hcs⟩

theorem invisible_below : ∀ (t : FTree) (S : TreeState) (j : String) (f0 : Nat),
    RepTree S (some j) t →
    (∀ f, f0 ≤ f → isTabVisibleWalk f S (some j) = false) →
    ∀ d ∈ t.flatIds, ∀ f, f0 + t.height ≤ f → isTabVisible f S d = false
  | FTree.node x cs, S, j, f0 => by
    intro hrep hwalk d hd f hf
    obtain ⟨n, hne, hget, hid, hpar, hch, hcs⟩ := repTree_node_inv hrep
    rcases List.mem_cons.mp hd with heq | hd'
    · rw [heq]
      unfold isTabVisible
      rw [hget]
      simp only [hpar]
      exact hwalk f (by
        have h1 : 1 ≤ FTree.height (.node x cs) := height_pos _
        omega)
    · rcases mem_flatIdsList.mp hd' with ⟨c, hc, hdc⟩
      have hwalkx : ∀ f', f0 + 1 ≤ f' → isTabVisibleWalk f' S (some x) = false := by
        intro f' hf'
        match f', hf' with
        | f'' + 1, hf' =>
          unfold isTabVisibleWalk
          have hxne : optTruthy (some x) = some x := by simp [optTruthy, hne]
          simp only [hxne, hget]
          by_cases hcol : n.collapsed
          · simp [hcol]
          · simp only [hcol, Bool.false_eq_true, if_false, hpar]
            exact hwalk f'' (by omega)
      exact invisible_below c S x (f0 + 1) (hcs c hc) hwalkx d hdc f
        (by
          have h1 : c.height ≤ heightList cs := height_le_heightList hc
          have h2 : FTree.height (.node x cs) = heightList cs + 1 := rfl
          omega)
termination_by t => sizeOf t
decreasing_by
  simp_wf
  have := List.sizeOf_lt_of_mem hc
  omega

/-- Claim C10.  For a store realising an abstract forest `F` (the
validity of a reachable tree state) with enough fuel for the traversal:
(1) `getTabsInTreeOrder` emits exactly the depth-first listing of `F` —
roots in `roots` order, children in `childIds` order — so, when the
forest's ids are distinct, exactly one snapshot per reachable node, and
nodes beneath collapsed ancestors are included;
(2) toggling any node's collapse state never removes entries from, or
reorders, the id sequence `getTabsInTreeOrder` returns;
(3) while collapsing changes `isTabVisible`: every strict descendant of
a collapsed node is invisible. -/
theorem tree_order_renders_every_node (S : TreeState) (F : List FTree) (fuel : Nat)
    (hrep : RepForest S F) (hfuel : heightList F ≤ fuel) :
    ((getTabsInTreeOrder fuel S).map TabNode.id = flatIdsList F) ∧
    ((flatIdsList F).Nodup → ((getTabsInTreeOrder fuel S).map TabNode.id).Nodup) ∧
    (∀ ac c, (getTabsInTreeOrder fuel (toggleCollapsed ac S c)).map TabNode.id
      = (getTabsInTreeOrder fuel S).map TabNode.id) ∧
    (∀ i cs p, RepTree S p (FTree.node i cs) →
      (mapGet S.tabs i).map TabNode.collapsed = some true →
      ∀ d ∈ flatIdsList cs, ∀ vf, heightList cs + 1 ≤ vf →
        isTabVisible vf S d = false) := by
  have border : ∀ (S' : TreeState), RepForest S' F →
      (getTabsInTreeOrder fuel S').map TabNode.id = flatIdsList F := by
    intro S' h
    show ((S'.roots.foldl (fun acc r => acc ++ addWithChildren fuel S' r false) []).map
      TabNode.id) = _
    rw [h.1]
    exact aw_forest F S' none false fuel h.2 hfuel
  refine ⟨border S hrep, ?_, ?_, ?_⟩
  · intro hnd
    rw [border S hrep]
    exact hnd
  · intro ac c
    rw [border S hrep,
      border _ (repForest_of_sameShape (sameShape_toggleCollapsed ac S c) hrep)]
  · intro i cs p hsub hcol d hd vf hvf
    obtain ⟨n, hne, hget, hid, hpar, hch, hcs⟩ := repTree_node_inv hsub
    rcases mem_flatIdsList.mp hd with ⟨c, hc, hdc⟩
    have hcoltrue : n.collapsed = true := by
      rw [hget] at hcol
      simpa using hcol
    have hwalk : ∀ f, 1 ≤ f → isTabVisibleWalk f S (some i) = false := by
      intro f hf
      match f, hf with
      | f' + 1, _ =>
        unfold isTabVisibleWalk
        have hine : optTruthy (some i) = some i := by simp [optTruthy, hne]
        simp [hine, hget, hcoltrue]
    exact invisible_below c S i 1 (hcs c hc) hwalk d hdc vf
      (by
        have := height_le_heightList hc
        omega)

/-- Witness for claim C10 on a three-node chain `a → b → c` with `a`
collapsed: the render listing still contains all three ids in
depth-first order, and the descendants `b`, `c` are invisible. -/
theorem tree_order_renders_every_node_witness :
    ((getTabsInTreeOrder 3
        ⟨[("a", ⟨"a", none, ["b"], 0, true, "A", "reader", "tab", false⟩),
          ("b", ⟨"b", some "a", ["c"], 1, false, "B", "reader", "tab", false⟩),
          ("c", ⟨"c", some "b", [], 2, false, "C", "reader", "tab", false⟩)],
         ["a"], ["a"]⟩).map TabNode.id = ["a", "b", "c"]) ∧
    isTabVisible 3
        ⟨[("a", ⟨"a", none, ["b"], 0, true, "A", "reader", "tab", false⟩),
          ("b", ⟨"b", some "a", ["c"], 1, false, "B", "reader", "tab", false⟩),
          ("c", ⟨"c", some "b", [], 2, false, "C", "reader", "tab", false⟩)],
         ["a"], ["a"]⟩ "b" = false := by
  have hc : RepTree
      ⟨[("a", ⟨"a", none, ["b"], 0, true, "A", "reader", "tab", false⟩),
        ("b", ⟨"b", some "a", ["c"], 1, false, "B", "reader", "tab", false⟩),
        ("c", ⟨"c", some "b", [], 2, false, "C", "reader", "tab", false⟩)],
       ["a"], ["a"]⟩ (some "b") (.node "c" []) :=
    RepTree.node _ _ _ ⟨"c", some "b", [], 2, false, "C", "reader", "tab", false⟩
      (by decide) (by decide) rfl rfl rfl (fun t ht => absurd ht (List.not_mem_nil t))
  have hb : RepTree
      ⟨[("a", ⟨"a", none, ["b"], 0, true, "A", "reader", "tab", false⟩),
        ("b", ⟨"b", some "a", ["c"], 1, false, "B", "reader", "tab", false⟩),
        ("c", ⟨"c", some "b", [], 2, false, "C", "reader", "tab", false⟩)],
       ["a"], ["a"]⟩ (some "a") (.node "b" [.node "c" []]) :=
    RepTree.node _ _ _ ⟨"b", some "a", ["c"], 1, false, "B", "reader", "tab", false⟩
      (by decide) (by decide) rfl rfl rfl
      (by
        intro t ht
        rcases List.mem_singleton.mp ht with rfl
        exact hc)
  have ha : RepTree
      ⟨[("a", ⟨"a", none, ["b"], 0, true, "A", "reader", "tab", false⟩),
        ("b", ⟨"b", some "a", ["c"], 1, false, "B", "reader", "tab", false⟩),
        ("c", ⟨"c", some "b", [], 2, false, "C", "reader", "tab", false⟩)],
       ["a"], ["a"]⟩ none (.node "a" [.node "b" [.node "c" []]]) :=
    RepTree.node _ _ _ ⟨"a", none, ["b"], 0, true, "A", "reader", "tab", false⟩
      (by decide) (by decide) rfl rfl rfl
      (by
        intro t ht
        rcases List.mem_singleton.mp ht with rfl
        exact hb)
  have h := tree_order_renders_every_node
    ⟨[("a", ⟨"a", none, ["b"], 0, true, "A", "reader", "tab", false⟩),
      ("b", ⟨"b", some "a", ["c"], 1, false, "B", "reader", "tab", false⟩),
      ("c", ⟨"c", some "b", [], 2, false, "C", "reader", "tab", false⟩)],
     ["a"], ["a"]⟩ [.node "a" [.node "b" [.node "c" []]]] 3
    ⟨rfl, by
      intro t ht
      rcases List.mem_singleton.mp ht with rfl
      exact ha⟩
    (by decide)
  refine ⟨h.1, ?_⟩
  exact h.2.2.2 "a" [.node "b" [.node "c" []]] none ha rfl "b" (by decide) 3 (by decide)
